import Mathlib

/-!
The TRIPS instruction scheduler (`scheduler.cc`).

A shallow embedding of `trips::compiler::scheduler::schedule_block` and the
properties of the list-scheduling pass it implements.

Modelling conventions.

* An `Instruction*` is its address, a natural number; a block is the list of
  addresses returned by `getInstructions`.  The null pointer that the scan
  uses for "nothing selected" is `none : Option Instr`.
* `std::unordered_map<Instruction*, T>` is a total function `Instr → T` whose
  value at a missing key is the value-initialised `T` (what `operator[]`
  creates): the empty vector, the integer `0`.
* `std::unordered_set<Instruction*>` is a duplicate-free list.  The order in
  which a range-`for` visits the set is unspecified by the language, so it is
  a parameter of the pass (`Env.readyOrder`).
* `int` is the 32-bit two's complement integer: a value of type `Int` in the
  range from `INT_MIN` to `INT_MAX`.  Signed overflow is undefined behaviour
  in C++; the model gives `+` on `int` the wrap-around of the machine
  (`addInt`), and every statement about a mathematical sum carries the
  hypothesis that no partial sum leaves the range.
* The collaborators that `scheduler.cc` calls but does not define
  (`dependsOn`, `computeCriticalPathLength`, `estimateResourcePressure`,
  `getLatency`, `hasResourceConflict`) are parameters.  `hasResourceConflict`
  is an arbitrary C++ function and may keep state between calls, so it
  threads a state of type `σ`.
* The `while` loop is run with fuel; `none` means the fuel ran out.
-/

namespace trips

/-- An instruction, identified by its address. -/
abbrev Instr := Nat

/-- A basic block: the ordered sequence of its instructions. -/
structure BasicBlock where
  instructions : List Instr
deriving DecidableEq, Repr

/-- The accessor `block->getInstructions()`. -/
def BasicBlock.getInstructions (block : BasicBlock) : List Instr :=
  block.instructions

/-- Modelled from the spec: `BasicBlock::reorderInstructions` is declared
outside `scheduler.cc`; by section 4.4 it replaces the instruction order of
the block with the schedule it is given and changes nothing else. -/
def BasicBlock.reorderInstructions (_block : BasicBlock) (schedule : List Instr) :
    BasicBlock :=
  ⟨schedule⟩

/-- The environment of one pass: the collaborators called by `schedule_block`
and the visiting order of the ready set. -/
structure Env (σ Opts : Type) where
  /-- The predicate `instr->dependsOn(other)`. -/
  dependsOn : Instr → Instr → Bool
  /-- The estimator `computeCriticalPathLength(instr, dependencies)`. -/
  computeCriticalPathLength : Instr → (Instr → List Instr) → Int
  /-- The estimator `estimateResourcePressure(instr)`. -/
  estimateResourcePressure : Instr → Int
  /-- The accessor `instr->getLatency()`. -/
  getLatency : Instr → Int
  /-- The oracle `hasResourceConflict(selected, schedule, options)`, with the
  state it may keep between calls. -/
  hasResourceConflict : σ → Instr → List Instr → Opts → Bool × σ
  /-- The order in which `for (auto* instr : ready)` visits the ready set. -/
  readyOrder : List Instr → List Instr
  /-- A range-`for` visits every element of the set once and nothing else. -/
  readyOrder_perm : ∀ l : List Instr, (readyOrder l).Perm l

/-! ## Stage 1: the dependency graph (lines 18-28) -/

/-- The statement `dependencies[instr].push_back(other)`. -/
def pushDependency (dependencies : Instr → List Instr) (instr other : Instr) :
    Instr → List Instr :=
  fun k => if k = instr then dependencies k ++ [other] else dependencies k

/-- The inner loop over `other` (lines 22-27) for one `instr`. -/
def scanOthers (dependsOn : Instr → Instr → Bool) (instr : Instr)
    (others : List Instr) (dependencies : Instr → List Instr) : Instr → List Instr :=
  others.foldl
    (fun deps other =>
      if instr = other then deps
      else if dependsOn instr other then pushDependency deps instr other
      else deps)
    dependencies

/-- The outer loop over `instr` (lines 21-28), starting from the empty map. -/
def buildDependencies (dependsOn : Instr → Instr → Bool) (instructions : List Instr) :
    Instr → List Instr :=
  instructions.foldl
    (fun deps instr => scanOthers dependsOn instr instructions deps)
    (fun _ => [])

/-! ## Stage 2: priorities (lines 30-41) -/

/-- The smallest value of type `int`. -/
def INT_MIN : Int := -2147483648

/-- The largest value of type `int`. -/
def INT_MAX : Int := 2147483647

/-- The `int` that holds the integer `z` after wrap-around. -/
def wrapInt (z : Int) : Int :=
  (z + 2147483648) % 4294967296 - 2147483648

/-- The addition `a + b` on `int` (the `+=` of lines 35, 37 and 39). -/
def addInt (a b : Int) : Int :=
  wrapInt (a + b)

/-- The score of one instruction (lines 33-39): `int score = 0` followed by
three `score += ...`. -/
def score {σ Opts : Type} (env : Env σ Opts) (dependencies : Instr → List Instr)
    (instr : Instr) : Int :=
  addInt
    (addInt (addInt 0 (env.computeCriticalPathLength instr dependencies))
      (env.estimateResourcePressure instr))
    (env.getLatency instr)

/-- The loop that fills the `priority` map (lines 32-41). -/
def computePriorities {σ Opts : Type} (env : Env σ Opts) (instructions : List Instr)
    (dependencies : Instr → List Instr) : Instr → Int :=
  instructions.foldl
    (fun priority instr => fun k =>
      if k = instr then score env dependencies instr else priority k)
    (fun _ => 0)

/-! ## Stage 3: the scheduling loop (lines 43-95) -/

/-- The operation `set.insert(x)`. -/
def setInsert (s : List Instr) (x : Instr) : List Instr :=
  if x ∈ s then s else s ++ [x]

/-- The operation `set.erase(x)`. -/
def setErase (s : List Instr) (x : Instr) : List Instr :=
  s.erase x

/-- The initial ready set (lines 49-53). -/
def initReady (instructions : List Instr) (dependencies : Instr → List Instr) :
    List Instr :=
  instructions.foldl
    (fun ready instr => if (dependencies instr).isEmpty then setInsert ready instr else ready)
    []

/-- The selection scan (lines 57-64) over the visiting order `scan`: the pair
`(selected, bestPriority)` after the loop. -/
def selectBest (priority : Instr → Int) (scan : List Instr) : Option Instr × Int :=
  scan.foldl
    (fun acc instr => if priority instr > acc.2 then (some instr, priority instr) else acc)
    (none, -1)

/-- The inner loop with `break` (lines 84-90): the final `allDepsScheduled`. -/
def allDepsScheduled (scheduled : List Instr) : List Instr → Bool
  | [] => true
  | dep :: rest => if dep ∈ scheduled then allDepsScheduled scheduled rest else false

/-- The ready-set update after a commit (lines 82-94). -/
def updateReady (instructions : List Instr) (dependencies : Instr → List Instr)
    (scheduled ready : List Instr) : List Instr :=
  instructions.foldl
    (fun r instr =>
      if instr ∈ scheduled then r
      else if allDepsScheduled scheduled (dependencies instr) then setInsert r instr
      else r)
    ready

/-- The variables of the loop, and the state of the oracle. -/
structure SchedState (σ : Type) where
  schedule : List Instr
  scheduled : List Instr
  ready : List Instr
  oracle : σ
deriving DecidableEq

/-- The state before the first iteration (lines 44-53). -/
def initState {σ : Type} (instructions : List Instr) (dependencies : Instr → List Instr)
    (oracle : σ) : SchedState σ :=
  ⟨[], [], initReady instructions dependencies, oracle⟩

/-- One iteration of the `while` loop (lines 55-95).  `none` is an exit: the
loop condition fails, or `if (!selected) break` fires. -/
def step {σ Opts : Type} (env : Env σ Opts) (options : Opts) (instructions : List Instr)
    (dependencies : Instr → List Instr) (priority : Instr → Int) (s : SchedState σ) :
    Option (SchedState σ) :=
  if s.ready.isEmpty then none
  else
    match (selectBest priority (env.readyOrder s.ready)).1 with
    | none => none
    | some selected =>
      let answer := env.hasResourceConflict s.oracle selected s.schedule options
      if answer.1 then
        some ⟨s.schedule, s.scheduled, setErase s.ready selected, answer.2⟩
      else
        let scheduled := setInsert s.scheduled selected
        some ⟨s.schedule ++ [selected], scheduled,
          updateReady instructions dependencies scheduled (setErase s.ready selected),
          answer.2⟩

/-- The `while` loop, run for at most `fuel` iterations; `none` when the loop
has not exited by then. -/
def scheduleLoop {σ Opts : Type} (env : Env σ Opts) (options : Opts)
    (instructions : List Instr) (dependencies : Instr → List Instr)
    (priority : Instr → Int) : Nat → SchedState σ → Option (SchedState σ)
  | 0, _ => none
  | fuel + 1, s =>
    match step env options instructions dependencies priority s with
    | none => some s
    | some s' => scheduleLoop env options instructions dependencies priority fuel s'

/-- The number of iterations allowed for a block of `n` instructions. -/
def loopFuel (n : Nat) : Nat := (n + 1) * (n + 1)

/-- Stages 1 to 3: the state of the loop variables when the loop exits. -/
def runPass {σ Opts : Type} (env : Env σ Opts) (oracle : σ) (options : Opts)
    (instructions : List Instr) : Option (SchedState σ) :=
  let dependencies := buildDependencies env.dependsOn instructions
  let priority := computePriorities env instructions dependencies
  scheduleLoop env options instructions dependencies priority
    (loopFuel instructions.length) (initState instructions dependencies oracle)

/-- The schedule that the pass hands to `reorderInstructions`. -/
def finalSchedule {σ Opts : Type} (env : Env σ Opts) (oracle : σ) (options : Opts)
    (instructions : List Instr) : Option (List Instr) :=
  (runPass env oracle options instructions).map (fun s => s.schedule)

/-- The function `schedule_block(block, options)`: the block after the call.
The source has no other way out than line 98, so the result is always the
reordered block; `none` stands only for fuel exhaustion. -/
def schedule_block {σ Opts : Type} (env : Env σ Opts) (oracle : σ) (block : BasicBlock)
    (options : Opts) : Option BasicBlock :=
  (finalSchedule env oracle options block.getInstructions).map
    (fun schedule => block.reorderInstructions schedule)

/-! ## Predicates used in the statements and proofs -/

/-- The dependency map of a pass over `instructions`. -/
abbrev depsOf {σ Opts : Type} (env : Env σ Opts) (instructions : List Instr) :
    Instr → List Instr :=
  buildDependencies env.dependsOn instructions

/-- The priority map of a pass over `instructions`. -/
abbrev priorityOf {σ Opts : Type} (env : Env σ Opts) (instructions : List Instr) :
    Instr → Int :=
  computePriorities env instructions (depsOf env instructions)

/-- Instruction `d` stands strictly before instruction `i` in the list `l`. -/
def Before (l : List Instr) (d i : Instr) : Prop :=
  ∃ pre post, l = pre ++ i :: post ∧ d ∈ pre

/-- The dependencies that one pass of the inner loop appends for `a`. -/
def directDeps (dependsOn : Instr → Instr → Bool) (instructions : List Instr) (a : Instr) :
    List Instr :=
  instructions.filter (fun b => decide (b ≠ a) && dependsOn a b)

/-- The relation `a` depends on `b`, between distinct instructions of the block. -/
def DepRel (dependsOn : Instr → Instr → Bool) (instructions : List Instr) (a b : Instr) :
    Prop :=
  a ∈ instructions ∧ b ∈ instructions ∧ a ≠ b ∧ dependsOn a b = true

/-- The dependency predicate induces no cycle among the instructions of the block. -/
def Acyclic (dependsOn : Instr → Instr → Bool) (instructions : List Instr) : Prop :=
  ∀ a, ¬ Relation.TransGen (DepRel dependsOn instructions) a a

/-- The invariant of the loop, for every input. -/
structure Inv {σ : Type} (instructions : List Instr) (dependencies : Instr → List Instr)
    (s : SchedState σ) : Prop where
  schedule_nodup : s.schedule.Nodup
  scheduled_nodup : s.scheduled.Nodup
  scheduled_iff : ∀ x, x ∈ s.scheduled ↔ x ∈ s.schedule
  schedule_sub : ∀ x ∈ s.schedule, x ∈ instructions
  ready_nodup : s.ready.Nodup
  ready_sub : ∀ x ∈ s.ready, x ∈ instructions
  ready_unscheduled : ∀ x ∈ s.ready, x ∉ s.scheduled
  ready_deps : ∀ x ∈ s.ready, ∀ d ∈ dependencies x, d ∈ s.scheduled
  closed : ∀ pre x post, s.schedule = pre ++ x :: post → ∀ d ∈ dependencies x, d ∈ pre

/-- The states the loop can be in at the head of an iteration. -/
inductive Reachable {σ Opts : Type} (env : Env σ Opts) (options : Opts)
    (instructions : List Instr) (dependencies : Instr → List Instr)
    (priority : Instr → Int) (oracle : σ) : SchedState σ → Prop
  | init : Reachable env options instructions dependencies priority oracle
      (initState instructions dependencies oracle)
  | next {s s' : SchedState σ} :
      Reachable env options instructions dependencies priority oracle s →
      step env options instructions dependencies priority s = some s' →
      Reachable env options instructions dependencies priority oracle s'

/-- The variant of the loop: unscheduled instructions first, ready set second. -/
def loopMeasure {σ : Type} (instructions : List Instr) (s : SchedState σ) : Nat :=
  (instructions.length - s.scheduled.length) * (instructions.length + 1) + s.ready.length

/-- Every unscheduled instruction whose dependencies are all scheduled is in
the ready set. -/
def ReadyFull {σ : Type} (instructions : List Instr) (dependencies : Instr → List Instr)
    (s : SchedState σ) : Prop :=
  ∀ x ∈ instructions, x ∉ s.scheduled → (∀ d ∈ dependencies x, d ∈ s.scheduled) →
    x ∈ s.ready

/-- The invariant of a pass without dependencies and without conflicts. -/
def SortedInv {σ Opts : Type} (env : Env σ Opts) (instructions : List Instr)
    (dependencies : Instr → List Instr) (priority : Instr → Int) (s : SchedState σ) : Prop :=
  ReadyFull instructions dependencies s ∧
  s.schedule.Pairwise (fun x y => priority y ≤ priority x) ∧
  (∀ x ∈ s.schedule, ∀ y ∈ s.ready, priority y ≤ priority x) ∧
  ((∀ l, env.readyOrder l = l) → instructions.Nodup →
    s.ready = instructions.filter (fun y => decide (y ∉ s.scheduled)) ∧
    s.schedule.Pairwise (fun x y => priority y < priority x ∨
      (priority y = priority x ∧ List.Sublist [x, y] instructions)) ∧
    ∀ x ∈ s.schedule, ∀ y ∈ s.ready, priority y < priority x ∨
      (priority y = priority x ∧ List.Sublist [x, y] instructions))

/-- The answer of the oracle depends only on the instruction, the schedule so
far and the options, not on the state it keeps. -/
def OracleStateless {σ Opts : Type} (env : Env σ Opts) (options : Opts) : Prop :=
  ∀ (o o' : σ) (x : Instr) (sch : List Instr),
    (env.hasResourceConflict o x sch options).1 = (env.hasResourceConflict o' x sch options).1

/-- Instruction `t` of the block is a candidate against the schedule `sch`: it
is not in `sch` and all its recorded dependencies are. -/
def Eligible (instructions : List Instr) (dependencies : Instr → List Instr)
    (sch : List Instr) (t : Instr) : Prop :=
  t ∈ instructions ∧ t ∉ sch ∧ ∀ d ∈ dependencies t, d ∈ sch

/-- Every candidate against the current schedule is in the ready set or is
rejected by the oracle against that schedule. -/
def ReadyOrRejected {σ Opts : Type} (env : Env σ Opts) (options : Opts)
    (instructions : List Instr) (dependencies : Instr → List Instr) (s : SchedState σ) :
    Prop :=
  ∀ t, Eligible instructions dependencies s.schedule t →
    t ∈ s.ready ∨ ∀ o : σ, (env.hasResourceConflict o t s.schedule options).1 = true

/-- The loop goes from state `s` to state `s'` in zero or more iterations. -/
def StepsTo {σ Opts : Type} (env : Env σ Opts) (options : Opts) (instructions : List Instr)
    (dependencies : Instr → List Instr) (priority : Instr → Int)
    (s s' : SchedState σ) : Prop :=
  Relation.ReflTransGen
    (fun a b => step env options instructions dependencies priority a = some b) s s'

/-- The mathematical sum of the three estimates of one instruction. -/
def prioritySum {σ Opts : Type} (env : Env σ Opts) (dependencies : Instr → List Instr)
    (instr : Instr) : Int :=
  env.computeCriticalPathLength instr dependencies + env.estimateResourcePressure instr
    + env.getLatency instr

/-- The integer `z` is a value of type `int`. -/
abbrev InIntRange (z : Int) : Prop :=
  INT_MIN ≤ z ∧ z ≤ INT_MAX

/-- None of the three additions of lines 35, 37 and 39 overflows for `instr`:
every partial sum is a value of type `int`. -/
abbrev SumInRange {σ Opts : Type} (env : Env σ Opts) (dependencies : Instr → List Instr)
    (instr : Instr) : Prop :=
  InIntRange (0 + env.computeCriticalPathLength instr dependencies) ∧
  InIntRange (env.computeCriticalPathLength instr dependencies
    + env.estimateResourcePressure instr) ∧
  InIntRange (env.computeCriticalPathLength instr dependencies
    + env.estimateResourcePressure instr + env.getLatency instr)

/-! ## Sample environments -/

/-- An environment whose two estimators return `0`, so that the priority of an
instruction is its latency; the ready set is visited in insertion order. -/
def sampleEnv {σ : Type} (dependsOn : Instr → Instr → Bool) (latency : Instr → Int)
    (oracle : σ → Instr → List Instr → Unit → Bool × σ) : Env σ Unit :=
  ⟨dependsOn, fun _ _ => 0, fun _ => 0, latency, oracle, fun l => l,
    fun l => List.Perm.refl l⟩

/-- The same environment with another visiting order of the ready set. -/
def Env.withOrder {σ Opts : Type} (env : Env σ Opts) (order : List Instr → List Instr)
    (horder : ∀ l : List Instr, (order l).Perm l) : Env σ Opts :=
  ⟨env.dependsOn, env.computeCriticalPathLength, env.estimateResourcePressure,
    env.getLatency, env.hasResourceConflict, order, horder⟩

/-- An environment without dependencies or conflicts in which every
instruction has critical-path length `0`, resource pressure `1` and latency
`INT_MAX`, so that the last addition of line 39 overflows. -/
def overflowEnv : Env Unit Unit :=
  ⟨fun _ _ => false, fun _ _ => 0, fun _ => 1, fun _ => 2147483647,
    fun _ _ _ _ => (false, ()), fun l => l, fun l => List.Perm.refl l⟩

/-- An oracle without state that never reports a conflict. -/
def noConflict : Unit → Instr → List Instr → Unit → Bool × Unit :=
  fun _ _ _ _ => (false, ())

/-- An oracle that rejects instruction `x` the first time it is asked about it
and accepts everything else; its state records whether `x` was asked about. -/
def rejectOnce (x : Instr) : Bool → Instr → List Instr → Unit → Bool × Bool :=
  fun asked instr _ _ => (instr == x && !asked, asked || instr == x)

/-- An oracle without state that rejects instruction `x` whenever asked. -/
def rejectAlways (x : Instr) : Unit → Instr → List Instr → Unit → Bool × Unit :=
  fun _ instr _ _ => (instr == x, ())

/-- Instruction `a + 1` depends on instruction `a`. -/
def chainDeps : Instr → Instr → Bool :=
  fun a b => a == b + 1

/-- Instructions `1` and `2` depend on each other. -/
def cycleDeps : Instr → Instr → Bool :=
  fun a b => (a == 1 && b == 2) || (a == 2 && b == 1)

/-- No instruction depends on another. -/
def noDeps : Instr → Instr → Bool :=
  fun _ _ => false

/-! ## Basic facts about the set operations and the scans -/

theorem mem_setInsert {s : List Instr} {x y : Instr} :
    y ∈ setInsert s x ↔ y ∈ s ∨ y = x := by
  unfold setInsert
  split
  · constructor
    · intro h; exact Or.inl h
    · rintro (h | rfl)
      · exact h
      · assumption
  · simp

theorem nodup_setInsert {s : List Instr} (x : Instr) (h : s.Nodup) :
    (setInsert s x).Nodup := by
  unfold setInsert
  split
  · exact h
  · rename_i hx
    rw [List.nodup_append]
    refine ⟨h, List.nodup_singleton x, ?_⟩
    intro a ha hb
    simp only [List.mem_singleton] at hb
    subst hb
    exact hx ha

theorem length_setInsert_of_not_mem {s : List Instr} {x : Instr} (h : x ∉ s) :
    (setInsert s x).length = s.length + 1 := by
  simp [setInsert, h]

theorem mem_setErase {s : List Instr} {x y : Instr} (h : s.Nodup) :
    y ∈ setErase s x ↔ y ∈ s ∧ y ≠ x := by
  unfold setErase
  rw [h.mem_erase_iff]
  tauto

theorem nodup_setErase {s : List Instr} (x : Instr) (h : s.Nodup) :
    (setErase s x).Nodup :=
  h.erase x

theorem length_setErase_of_mem {s : List Instr} {x : Instr} (h : x ∈ s) :
    (setErase s x).length + 1 = s.length := by
  unfold setErase
  rw [List.length_erase_of_mem h]
  have : 0 < s.length := List.length_pos_of_mem h
  omega

theorem allDepsScheduled_iff (scheduled : List Instr) (deps : List Instr) :
    allDepsScheduled scheduled deps = true ↔ ∀ d ∈ deps, d ∈ scheduled := by
  induction deps with
  | nil => simp [allDepsScheduled]
  | cons d rest ih =>
    unfold allDepsScheduled
    by_cases h : d ∈ scheduled
    · simp [h, ih]
    · simp [h]

theorem updateReady_spec (instructions : List Instr) (dependencies : Instr → List Instr)
    (scheduled : List Instr) :
    ∀ ready : List Instr, ready.Nodup →
      (updateReady instructions dependencies scheduled ready).Nodup ∧
      ∀ x, x ∈ updateReady instructions dependencies scheduled ready ↔
        x ∈ ready ∨ (x ∈ instructions ∧ x ∉ scheduled ∧
          ∀ d ∈ dependencies x, d ∈ scheduled) := by
  induction instructions with
  | nil => intro ready h; simp [updateReady, h]
  | cons a rest ih =>
    intro ready h
    unfold updateReady
    rw [List.foldl_cons]
    by_cases h1 : a ∈ scheduled
    · rw [if_pos h1]
      obtain ⟨hn, hm⟩ := ih ready h
      refine ⟨hn, fun x => ?_⟩
      have := hm x
      unfold updateReady at this
      rw [this]
      constructor
      · rintro (hx | ⟨hx, hs, hd⟩)
        · exact Or.inl hx
        · exact Or.inr ⟨List.mem_cons_of_mem _ hx, hs, hd⟩
      · rintro (hx | ⟨hx, hs, hd⟩)
        · exact Or.inl hx
        · rcases List.mem_cons.1 hx with rfl | hx
          · exact absurd h1 hs
          · exact Or.inr ⟨hx, hs, hd⟩
    · rw [if_neg h1]
      by_cases h2 : allDepsScheduled scheduled (dependencies a) = true
      · rw [if_pos h2]
        obtain ⟨hn, hm⟩ := ih (setInsert ready a) (nodup_setInsert a h)
        refine ⟨hn, fun x => ?_⟩
        have := hm x
        unfold updateReady at this
        rw [this, mem_setInsert]
        rw [allDepsScheduled_iff] at h2
        constructor
        · rintro ((hx | rfl) | ⟨hx, hs, hd⟩)
          · exact Or.inl hx
          · exact Or.inr ⟨List.mem_cons_self _ _, h1, h2⟩
          · exact Or.inr ⟨List.mem_cons_of_mem _ hx, hs, hd⟩
        · rintro (hx | ⟨hx, hs, hd⟩)
          · exact Or.inl (Or.inl hx)
          · rcases List.mem_cons.1 hx with rfl | hx
            · exact Or.inl (Or.inr rfl)
            · exact Or.inr ⟨hx, hs, hd⟩
      · rw [if_neg h2]
        obtain ⟨hn, hm⟩ := ih ready h
        refine ⟨hn, fun x => ?_⟩
        have := hm x
        unfold updateReady at this
        rw [this]
        rw [allDepsScheduled_iff] at h2
        constructor
        · rintro (hx | ⟨hx, hs, hd⟩)
          · exact Or.inl hx
          · exact Or.inr ⟨List.mem_cons_of_mem _ hx, hs, hd⟩
        · rintro (hx | ⟨hx, hs, hd⟩)
          · exact Or.inl hx
          · rcases List.mem_cons.1 hx with rfl | hx
            · exact absurd hd h2
            · exact Or.inr ⟨hx, hs, hd⟩

theorem initReady_aux (dependencies : Instr → List Instr) (instructions : List Instr) :
    ∀ ready : List Instr, ready.Nodup →
      (instructions.foldl
        (fun ready instr =>
          if (dependencies instr).isEmpty then setInsert ready instr else ready)
        ready).Nodup ∧
      ∀ x, x ∈ instructions.foldl
        (fun ready instr =>
          if (dependencies instr).isEmpty then setInsert ready instr else ready)
        ready ↔ x ∈ ready ∨ (x ∈ instructions ∧ dependencies x = []) := by
  induction instructions with
  | nil => intro ready h; simp [h]
  | cons a rest ih =>
    intro ready h
    rw [List.foldl_cons]
    by_cases h1 : dependencies a = []
    · have e : (dependencies a).isEmpty = true := by simp [h1]
      rw [if_pos e]
      obtain ⟨hn, hm⟩ := ih (setInsert ready a) (nodup_setInsert a h)
      refine ⟨hn, fun x => ?_⟩
      rw [hm x, mem_setInsert]
      constructor
      · rintro ((hx | rfl) | ⟨hx, hd⟩)
        · exact Or.inl hx
        · exact Or.inr ⟨List.mem_cons_self _ _, h1⟩
        · exact Or.inr ⟨List.mem_cons_of_mem _ hx, hd⟩
      · rintro (hx | ⟨hx, hd⟩)
        · exact Or.inl (Or.inl hx)
        · rcases List.mem_cons.1 hx with rfl | hx
          · exact Or.inl (Or.inr rfl)
          · exact Or.inr ⟨hx, hd⟩
    · have e : ¬ (dependencies a).isEmpty = true := by simpa using h1
      rw [if_neg e]
      obtain ⟨hn, hm⟩ := ih ready h
      refine ⟨hn, fun x => ?_⟩
      rw [hm x]
      constructor
      · rintro (hx | ⟨hx, hd⟩)
        · exact Or.inl hx
        · exact Or.inr ⟨List.mem_cons_of_mem _ hx, hd⟩
      · rintro (hx | ⟨hx, hd⟩)
        · exact Or.inl hx
        · rcases List.mem_cons.1 hx with rfl | hx
          · exact absurd hd h1
          · exact Or.inr ⟨hx, hd⟩

theorem nodup_initReady (instructions : List Instr) (dependencies : Instr → List Instr) :
    (initReady instructions dependencies).Nodup :=
  (initReady_aux dependencies instructions [] List.nodup_nil).1

theorem mem_initReady (instructions : List Instr) (dependencies : Instr → List Instr)
    (x : Instr) :
    x ∈ initReady instructions dependencies ↔ x ∈ instructions ∧ dependencies x = [] := by
  have := (initReady_aux dependencies instructions [] List.nodup_nil).2 x
  unfold initReady
  rw [this]
  simp

/-- The selection scan from an arbitrary starting pair: either nothing beats
the starting priority, or the result is the first element of the scan that
attains the maximum, which is above the starting priority. -/
theorem select_fold (priority : Instr → Int) :
    ∀ (scan : List Instr) (sel : Option Instr) (best : Int),
      (scan.foldl
          (fun acc instr =>
            if priority instr > acc.2 then (some instr, priority instr) else acc)
          (sel, best) = (sel, best) ∧ ∀ y ∈ scan, priority y ≤ best) ∨
      ∃ pre x post, scan = pre ++ x :: post ∧
        scan.foldl
          (fun acc instr =>
            if priority instr > acc.2 then (some instr, priority instr) else acc)
          (sel, best) = (some x, priority x) ∧
        best < priority x ∧ (∀ y ∈ pre, priority y < priority x) ∧
        ∀ y ∈ post, priority y ≤ priority x := by
  intro scan
  induction scan with
  | nil => intro sel best; left; simp
  | cons a rest ih =>
    intro sel best
    rw [List.foldl_cons]
    by_cases h : priority a > best
    · simp only [h, if_true]
      rcases ih (some a) (priority a) with ⟨e, hle⟩ | ⟨pre, x, post, e1, e2, hlt, hpre, hpost⟩
      · right
        exact ⟨[], a, rest, rfl, e, h, by simp, hle⟩
      · right
        refine ⟨a :: pre, x, post, by simp [e1], e2, by omega, ?_, hpost⟩
        intro y hy
        rcases List.mem_cons.1 hy with rfl | hy
        · exact hlt
        · exact hpre y hy
    · simp only [h, if_false]
      rcases ih sel best with ⟨e, hle⟩ | ⟨pre, x, post, e1, e2, hlt, hpre, hpost⟩
      · left
        refine ⟨e, ?_⟩
        intro y hy
        rcases List.mem_cons.1 hy with rfl | hy
        · omega
        · exact hle y hy
      · right
        refine ⟨a :: pre, x, post, by simp [e1], e2, hlt, ?_, hpost⟩
        intro y hy
        rcases List.mem_cons.1 hy with rfl | hy
        · omega
        · exact hpre y hy

/-- What the selection scan returns. -/
theorem selectBest_cases (priority : Instr → Int) (scan : List Instr) :
    ((selectBest priority scan).1 = none ∧ ∀ y ∈ scan, priority y ≤ -1) ∨
    ∃ pre x post, scan = pre ++ x :: post ∧ (selectBest priority scan).1 = some x ∧
      -1 < priority x ∧ (∀ y ∈ pre, priority y < priority x) ∧
      ∀ y ∈ post, priority y ≤ priority x := by
  unfold selectBest
  rcases select_fold priority scan none (-1) with ⟨e, hle⟩ | ⟨pre, x, post, e1, e2, h⟩
  · left
    exact ⟨by rw [e], hle⟩
  · right
    exact ⟨pre, x, post, e1, by rw [e2], h⟩

theorem selectBest_some {priority : Instr → Int} {scan : List Instr} {x : Instr}
    (h : (selectBest priority scan).1 = some x) :
    x ∈ scan ∧ -1 < priority x ∧ ∀ y ∈ scan, priority y ≤ priority x := by
  rcases selectBest_cases priority scan with ⟨e, _⟩ | ⟨pre, z, post, e1, e2, h1, h2, h3⟩
  · rw [e] at h; cases h
  · rw [e2] at h
    cases h
    refine ⟨by simp [e1], h1, ?_⟩
    intro y hy
    rw [e1] at hy
    rcases List.mem_append.1 hy with hy | hy
    · exact le_of_lt (h2 y hy)
    · rcases List.mem_cons.1 hy with rfl | hy
      · exact le_refl _
      · exact h3 y hy

theorem selectBest_none {priority : Instr → Int} {scan : List Instr}
    (h : (selectBest priority scan).1 = none) : ∀ y ∈ scan, priority y ≤ -1 := by
  rcases selectBest_cases priority scan with ⟨_, hle⟩ | ⟨pre, z, post, _, e2, _⟩
  · exact hle
  · rw [e2] at h; cases h

section Loop

variable {σ Opts : Type} (env : Env σ Opts) (options : Opts) (instructions : List Instr)
  (dependencies : Instr → List Instr) (priority : Instr → Int)

/-- The two ways an iteration can continue. -/
theorem step_some {s s' : SchedState σ}
    (h : step env options instructions dependencies priority s = some s') :
    ∃ selected, (selectBest priority (env.readyOrder s.ready)).1 = some selected ∧
      (((env.hasResourceConflict s.oracle selected s.schedule options).1 = true ∧
        s' = ⟨s.schedule, s.scheduled, setErase s.ready selected,
          (env.hasResourceConflict s.oracle selected s.schedule options).2⟩) ∨
      ((env.hasResourceConflict s.oracle selected s.schedule options).1 = false ∧
        s' = ⟨s.schedule ++ [selected], setInsert s.scheduled selected,
          updateReady instructions dependencies (setInsert s.scheduled selected)
            (setErase s.ready selected),
          (env.hasResourceConflict s.oracle selected s.schedule options).2⟩)) := by
  unfold step at h
  split at h
  · cases h
  · split at h
    · cases h
    · rename_i selected hsel
      refine ⟨selected, hsel, ?_⟩
      by_cases hc : (env.hasResourceConflict s.oracle selected s.schedule options).1 = true
      · left
        simp only [hc, if_true, Option.some.injEq] at h
        exact ⟨hc, h.symm⟩
      · right
        simp only [hc] at h
        simp only [Bool.false_eq_true, if_false, Option.some.injEq] at h
        exact ⟨by simpa using hc, h.symm⟩

/-- When the loop exits: the ready set is empty, or no ready instruction has
a priority above `-1`. -/
theorem step_none {s : SchedState σ}
    (h : step env options instructions dependencies priority s = none) :
    s.ready = [] ∨ (selectBest priority (env.readyOrder s.ready)).1 = none := by
  unfold step at h
  split at h
  · left
    rename_i he
    simpa using he
  · split at h
    · rename_i hn
      exact Or.inr hn
    · dsimp only at h
      split at h <;> cases h

theorem inv_init (oracle : σ) :
    Inv instructions dependencies (initState instructions dependencies oracle) := by
  refine ⟨List.nodup_nil, List.nodup_nil, fun x => Iff.rfl, ?_, ?_, ?_, ?_, ?_, ?_⟩
  · intro x hx; cases hx
  · exact nodup_initReady instructions dependencies
  · intro x hx
    exact ((mem_initReady instructions dependencies x).1 hx).1
  · intro x _ hx; cases hx
  · intro x hx d hd
    rw [((mem_initReady instructions dependencies x).1 hx).2] at hd
    cases hd
  · intro pre x post h
    simp [initState] at h

theorem selected_mem_ready {s : SchedState σ} {x : Instr}
    (h : (selectBest priority (env.readyOrder s.ready)).1 = some x) : x ∈ s.ready :=
  (env.readyOrder_perm s.ready).mem_iff.1 (selectBest_some h).1

theorem inv_step {s s' : SchedState σ}
    (hinv : Inv instructions dependencies s)
    (h : step env options instructions dependencies priority s = some s') :
    Inv instructions dependencies s' := by
  obtain ⟨selected, hsel, hcase⟩ := step_some env options instructions dependencies priority h
  have hmem : selected ∈ s.ready := selected_mem_ready env priority hsel
  rcases hcase with ⟨_, rfl⟩ | ⟨_, rfl⟩
  · refine ⟨hinv.schedule_nodup, hinv.scheduled_nodup, hinv.scheduled_iff,
      hinv.schedule_sub, nodup_setErase _ hinv.ready_nodup, ?_, ?_, ?_, hinv.closed⟩
    · intro x hx
      exact hinv.ready_sub x ((mem_setErase hinv.ready_nodup).1 hx).1
    · intro x hx
      exact hinv.ready_unscheduled x ((mem_setErase hinv.ready_nodup).1 hx).1
    · intro x hx
      exact hinv.ready_deps x ((mem_setErase hinv.ready_nodup).1 hx).1
  · have hns : selected ∉ s.scheduled := hinv.ready_unscheduled selected hmem
    have hnsch : selected ∉ s.schedule := fun hc => hns ((hinv.scheduled_iff selected).2 hc)
    obtain ⟨hun, hum⟩ := updateReady_spec instructions dependencies
      (setInsert s.scheduled selected) (setErase s.ready selected)
      (nodup_setErase _ hinv.ready_nodup)
    refine ⟨?_, nodup_setInsert _ hinv.scheduled_nodup, ?_, ?_, hun, ?_, ?_, ?_, ?_⟩
    · show (s.schedule ++ [selected]).Nodup
      rw [List.nodup_append]
      refine ⟨hinv.schedule_nodup, List.nodup_singleton _, ?_⟩
      intro a ha hb
      simp only [List.mem_singleton] at hb
      subst hb
      exact hnsch ha
    · intro x
      show x ∈ setInsert s.scheduled selected ↔ x ∈ s.schedule ++ [selected]
      rw [mem_setInsert, List.mem_append, List.mem_singleton, hinv.scheduled_iff]
    · intro x hx
      rcases List.mem_append.1 hx with hx | hx
      · exact hinv.schedule_sub x hx
      · rw [List.mem_singleton.1 hx]
        exact hinv.ready_sub selected hmem
    · intro x hx
      rcases (hum x).1 hx with hx | ⟨hx, _, _⟩
      · exact hinv.ready_sub x ((mem_setErase hinv.ready_nodup).1 hx).1
      · exact hx
    · intro x hx
      show x ∉ setInsert s.scheduled selected
      rw [mem_setInsert]
      rcases (hum x).1 hx with hx | ⟨_, hx, _⟩
      · obtain ⟨h1, h2⟩ := (mem_setErase hinv.ready_nodup).1 hx
        rintro (h3 | h3)
        · exact hinv.ready_unscheduled x h1 h3
        · exact h2 h3
      · rwa [mem_setInsert] at hx
    · intro x hx d hd
      show d ∈ setInsert s.scheduled selected
      rcases (hum x).1 hx with hx | ⟨_, _, hx⟩
      · rw [mem_setInsert]
        exact Or.inl (hinv.ready_deps x ((mem_setErase hinv.ready_nodup).1 hx).1 d hd)
      · exact hx d hd
    · intro pre x post hsplit d hd
      change s.schedule ++ [selected] = pre ++ x :: post at hsplit
      rcases List.eq_nil_or_concat post with rfl | ⟨post', y, rfl⟩
      · obtain ⟨e1, e2⟩ := List.append_inj' hsplit rfl
        simp only [List.cons.injEq, and_true] at e2
        subst e2
        rw [← e1]
        exact (hinv.scheduled_iff d).1 (hinv.ready_deps selected hmem d hd)
      · have e : s.schedule ++ [selected] = (pre ++ x :: post') ++ [y] := by
          rw [hsplit]; simp
        obtain ⟨e1, _⟩ := List.append_inj' e rfl
        exact hinv.closed pre x post' e1 d hd

theorem reachable_inv {oracle : σ} {s : SchedState σ}
    (h : Reachable env options instructions dependencies priority oracle s) :
    Inv instructions dependencies s := by
  induction h with
  | init => exact inv_init instructions dependencies oracle
  | next _ hstep ih => exact inv_step env options instructions dependencies priority ih hstep

theorem length_le_of_nodup_sub {l : List Instr} (hn : l.Nodup)
    (hs : ∀ x ∈ l, x ∈ instructions) : l.length ≤ instructions.length :=
  (hn.subperm hs).length_le

theorem inv_scheduled_sub {s : SchedState σ} (hinv : Inv instructions dependencies s) :
    ∀ x ∈ s.scheduled, x ∈ instructions :=
  fun x hx => hinv.schedule_sub x ((hinv.scheduled_iff x).1 hx)

/-- What one iteration does to the loop variables: it commits an instruction
that was not yet in the schedule, or it leaves the schedule alone and removes
one instruction from the ready set. -/
theorem step_progress {s s' : SchedState σ} (hinv : Inv instructions dependencies s)
    (h : step env options instructions dependencies priority s = some s') :
    (∃ x, x ∈ instructions ∧ x ∉ s.schedule ∧ s'.schedule = s.schedule ++ [x] ∧
        s'.scheduled.length = s.scheduled.length + 1) ∨
    (s'.schedule = s.schedule ∧ s'.scheduled = s.scheduled ∧
        s'.ready.length + 1 = s.ready.length) := by
  obtain ⟨selected, hsel, hcase⟩ := step_some env options instructions dependencies priority h
  have hmem : selected ∈ s.ready := selected_mem_ready env priority hsel
  rcases hcase with ⟨_, rfl⟩ | ⟨_, rfl⟩
  · right
    exact ⟨rfl, rfl, length_setErase_of_mem hmem⟩
  · left
    have hns : selected ∉ s.scheduled := hinv.ready_unscheduled selected hmem
    refine ⟨selected, hinv.ready_sub selected hmem, ?_, rfl, ?_⟩
    · exact fun hc => hns ((hinv.scheduled_iff selected).2 hc)
    · exact length_setInsert_of_not_mem hns

theorem measure_step {s s' : SchedState σ} (hinv : Inv instructions dependencies s)
    (h : step env options instructions dependencies priority s = some s') :
    loopMeasure instructions s' < loopMeasure instructions s := by
  have hinv' := inv_step env options instructions dependencies priority hinv h
  have h1 := length_le_of_nodup_sub instructions hinv'.scheduled_nodup
    (inv_scheduled_sub instructions dependencies hinv')
  have h2 := length_le_of_nodup_sub instructions hinv'.ready_nodup hinv'.ready_sub
  unfold loopMeasure
  rcases step_progress env options instructions dependencies priority hinv h with
    ⟨x, _, _, _, hlen⟩ | ⟨_, hs, hlen⟩
  · rw [hlen] at h1 ⊢
    obtain ⟨m, hm⟩ : ∃ m, instructions.length - s.scheduled.length = m + 1 :=
      ⟨instructions.length - s.scheduled.length - 1, by omega⟩
    have e : instructions.length - (s.scheduled.length + 1) = m := by omega
    rw [hm, e, Nat.succ_mul]
    omega
  · rw [hs]
    omega

theorem measure_init (oracle : σ) :
    loopMeasure instructions (initState instructions dependencies oracle)
      < loopFuel instructions.length := by
  have h := length_le_of_nodup_sub instructions (nodup_initReady instructions dependencies)
    (fun x hx => ((mem_initReady instructions dependencies x).1 hx).1)
  unfold loopMeasure loopFuel initState
  simp only [List.length_nil, Nat.sub_zero]
  rw [Nat.succ_mul]
  omega

/-- The loop exits within the fuel given by its variant, and every property
that each iteration preserves holds of the exit state. -/
theorem loop_exits (P : SchedState σ → Prop)
    (hP : ∀ s s', Inv instructions dependencies s → P s →
      step env options instructions dependencies priority s = some s' → P s') :
    ∀ (fuel : Nat) (s : SchedState σ), Inv instructions dependencies s → P s →
      loopMeasure instructions s < fuel →
      ∃ r, scheduleLoop env options instructions dependencies priority fuel s = some r ∧
        Inv instructions dependencies r ∧ P r ∧
        step env options instructions dependencies priority r = none := by
  intro fuel
  induction fuel with
  | zero => intro s _ _ h; omega
  | succ fuel ih =>
    intro s hinv hp hlt
    unfold scheduleLoop
    cases hstep : step env options instructions dependencies priority s with
    | none => exact ⟨s, rfl, hinv, hp, hstep⟩
    | some s' =>
      have hm := measure_step env options instructions dependencies priority hinv hstep
      exact ih s' (inv_step env options instructions dependencies priority hinv hstep)
        (hP s s' hinv hp hstep) (by omega)

/-- The exit state of the loop is reachable. -/
theorem loop_reachable (oracle : σ) :
    ∀ (fuel : Nat) (s r : SchedState σ),
      Reachable env options instructions dependencies priority oracle s →
      scheduleLoop env options instructions dependencies priority fuel s = some r →
      Reachable env options instructions dependencies priority oracle r := by
  intro fuel
  induction fuel with
  | zero => intro s r _ h; simp [scheduleLoop] at h
  | succ fuel ih =>
    intro s r hs h
    unfold scheduleLoop at h
    cases hstep : step env options instructions dependencies priority s with
    | none =>
      rw [hstep] at h
      simp only [Option.some.injEq] at h
      rw [← h]; exact hs
    | some s' =>
      rw [hstep] at h
      exact ih s' r (Reachable.next hs hstep) h

end Loop

/-- The pass always exits its loop; the exit state satisfies the invariant and
every property that holds initially and is preserved by each iteration. -/
theorem runPass_exits {σ Opts : Type} (env : Env σ Opts) (oracle : σ) (options : Opts)
    (instructions : List Instr) (P : SchedState σ → Prop)
    (h0 : P (initState instructions (buildDependencies env.dependsOn instructions) oracle))
    (hP : ∀ s s', Inv instructions (buildDependencies env.dependsOn instructions) s → P s →
      step env options instructions (buildDependencies env.dependsOn instructions)
        (computePriorities env instructions (buildDependencies env.dependsOn instructions)) s
        = some s' → P s') :
    ∃ r, runPass env oracle options instructions = some r ∧
      Inv instructions (buildDependencies env.dependsOn instructions) r ∧ P r ∧
      step env options instructions (buildDependencies env.dependsOn instructions)
        (computePriorities env instructions (buildDependencies env.dependsOn instructions)) r
        = none := by
  unfold runPass
  exact loop_exits env options instructions _ _ P hP _ _
    (inv_init instructions _ oracle) h0 (measure_init instructions _ oracle)

/-! ## The dependency graph -/

theorem scanOthers_apply (dependsOn : Instr → Instr → Bool) (instr : Instr) :
    ∀ (others : List Instr) (dependencies : Instr → List Instr) (k : Instr),
      scanOthers dependsOn instr others dependencies k =
        if k = instr then dependencies k ++ directDeps dependsOn others instr
        else dependencies k := by
  intro others
  induction others with
  | nil => intro d k; simp [scanOthers, directDeps]
  | cons o rest ih =>
    intro d k
    have ih' := ih
    unfold scanOthers at ih' ⊢
    rw [List.foldl_cons]
    by_cases h1 : instr = o
    · subst h1
      rw [if_pos rfl, ih']
      simp [directDeps]
    · rw [if_neg h1]
      have h1' : o ≠ instr := fun e => h1 e.symm
      by_cases h2 : dependsOn instr o = true
      · rw [if_pos h2, ih']
        by_cases hk : k = instr
        · simp [hk, directDeps, pushDependency, h1', h2]
        · simp [hk, pushDependency]
      · rw [if_neg h2, ih']
        by_cases hk : k = instr
        · simp [hk, directDeps, h2]
        · simp [hk]

theorem buildDependencies_fold (dependsOn : Instr → Instr → Bool) (all : List Instr) :
    ∀ (l : List Instr) (dependencies : Instr → List Instr) (k : Instr),
      l.foldl (fun deps instr => scanOthers dependsOn instr all deps) dependencies k =
        dependencies k ++ (List.replicate (l.count k) (directDeps dependsOn all k)).flatten := by
  intro l
  induction l with
  | nil => intro d k; simp
  | cons a rest ih =>
    intro d k
    rw [List.foldl_cons, ih, scanOthers_apply]
    by_cases hk : k = a
    · subst hk
      simp [List.replicate_succ]
    · have hk' : a ≠ k := fun e => hk e.symm
      simp [hk, List.count_cons_of_ne hk']

theorem buildDependencies_apply (dependsOn : Instr → Instr → Bool) (instructions : List Instr)
    (k : Instr) :
    buildDependencies dependsOn instructions k =
      (List.replicate (instructions.count k) (directDeps dependsOn instructions k)).flatten := by
  unfold buildDependencies
  rw [buildDependencies_fold]
  simp

/-- Every recorded dependency is another instruction of the block that the
predicate relates to the instruction. -/
theorem mem_buildDependencies {dependsOn : Instr → Instr → Bool} {instructions : List Instr}
    {a b : Instr} (h : b ∈ buildDependencies dependsOn instructions a) :
    a ∈ instructions ∧ b ∈ instructions ∧ b ≠ a ∧ dependsOn a b = true := by
  rw [buildDependencies_apply, List.mem_flatten] at h
  obtain ⟨l, hl, hb⟩ := h
  obtain ⟨hc, rfl⟩ := List.mem_replicate.1 hl
  have ha : a ∈ instructions := List.count_pos_iff.1 (Nat.pos_of_ne_zero hc)
  simp only [directDeps, List.mem_filter, Bool.and_eq_true, decide_eq_true_eq] at hb
  exact ⟨ha, hb.1, hb.2.1, hb.2.2⟩

theorem buildDependencies_of_nodup {dependsOn : Instr → Instr → Bool}
    {instructions : List Instr} (hnd : instructions.Nodup) {a : Instr}
    (ha : a ∈ instructions) :
    buildDependencies dependsOn instructions a = directDeps dependsOn instructions a := by
  rw [buildDependencies_apply, List.count_eq_one_of_mem hnd ha]
  simp

/-! ## Acyclic dependency relations -/

/-- A numbering that decreases along every dependency rules out cycles. -/
theorem acyclic_of_rank {dependsOn : Instr → Instr → Bool} {instructions : List Instr}
    (rank : Instr → Nat)
    (h : ∀ a ∈ instructions, ∀ b ∈ instructions, a ≠ b → dependsOn a b = true →
      rank b < rank a) :
    Acyclic dependsOn instructions := by
  have key : ∀ a b, Relation.TransGen (DepRel dependsOn instructions) a b →
      rank b < rank a := by
    intro a b hab
    induction hab with
    | single hr => exact h _ hr.1 _ hr.2.1 hr.2.2.1 hr.2.2.2
    | tail _ hr ih => exact lt_trans (h _ hr.1 _ hr.2.1 hr.2.2.1 hr.2.2.2) ih
  intro a ha
  exact lt_irrefl _ (key a a ha)

/-- In an acyclic block every non-empty set of instructions has a member none
of whose dependencies is in the set. -/
theorem acyclic_min {dependsOn : Instr → Instr → Bool} {instructions : List Instr}
    (hac : Acyclic dependsOn instructions) (U : Instr → Prop) {x0 : Instr}
    (hx0 : x0 ∈ instructions) (hU : U x0) :
    ∃ m, m ∈ instructions ∧ U m ∧ ∀ d, DepRel dependsOn instructions m d → ¬ U d := by
  let r : {x // x ∈ instructions} → {x // x ∈ instructions} → Prop :=
    fun d m => Relation.TransGen (DepRel dependsOn instructions) m.1 d.1
  haveI : IsTrans {x // x ∈ instructions} r :=
    ⟨fun a b c hab hbc => Relation.TransGen.trans hbc hab⟩
  haveI : IsIrrefl {x // x ∈ instructions} r := ⟨fun a ha => hac a.1 ha⟩
  have hwf : WellFounded r := Finite.wellFounded_of_trans_of_irrefl r
  obtain ⟨m, hm, hmin⟩ := hwf.has_min {x : {x // x ∈ instructions} | U x.1}
    ⟨⟨x0, hx0⟩, hU⟩
  refine ⟨m.1, m.2, hm, ?_⟩
  intro d hd hUd
  exact hmin ⟨d, hd.2.1⟩ hUd (Relation.TransGen.single hd)

/-! ## Priorities -/

theorem computePriorities_fold {σ Opts : Type} (env : Env σ Opts)
    (dependencies : Instr → List Instr) :
    ∀ (l : List Instr) (priority : Instr → Int) (k : Instr),
      l.foldl
        (fun priority instr => fun k =>
          if k = instr then score env dependencies instr else priority k)
        priority k = if k ∈ l then score env dependencies k else priority k := by
  intro l
  induction l with
  | nil => intro p k; simp
  | cons a rest ih =>
    intro p k
    rw [List.foldl_cons, ih]
    by_cases h1 : k ∈ rest
    · simp [h1]
    · by_cases h2 : k = a
      · simp [h2]
      · simp [h1, h2]

/-- The priority map holds the score of every instruction of the block. -/
theorem computePriorities_apply {σ Opts : Type} (env : Env σ Opts)
    (instructions : List Instr) (dependencies : Instr → List Instr) {k : Instr}
    (hk : k ∈ instructions) :
    computePriorities env instructions dependencies k = score env dependencies k := by
  unfold computePriorities
  rw [computePriorities_fold]
  simp [hk]

/-! ## Passes without resource conflict -/

section Complete

variable {σ Opts : Type} (env : Env σ Opts) (options : Opts) (instructions : List Instr)
  (dependencies : Instr → List Instr) (priority : Instr → Int)

theorem readyFull_init (oracle : σ) :
    ReadyFull instructions dependencies (initState instructions dependencies oracle) := by
  intro x hx _ hd
  refine (mem_initReady instructions dependencies x).2 ⟨hx, ?_⟩
  apply List.eq_nil_iff_forall_not_mem.2
  intro d hmem
  have := hd d hmem
  simp [initState] at this

/-- The ready set is full after every commit. -/
theorem readyFull_commit {s s' : SchedState σ} (hinv : Inv instructions dependencies s)
    (h : step env options instructions dependencies priority s = some s')
    (hgrow : s'.schedule ≠ s.schedule) : ReadyFull instructions dependencies s' := by
  obtain ⟨selected, hsel, hcase⟩ := step_some env options instructions dependencies priority h
  rcases hcase with ⟨_, rfl⟩ | ⟨_, rfl⟩
  · exact absurd rfl hgrow
  · intro x hx hns hd
    exact ((updateReady_spec instructions dependencies (setInsert s.scheduled selected)
      (setErase s.ready selected) (nodup_setErase _ hinv.ready_nodup)).2 x).2
      (Or.inr ⟨hx, hns, hd⟩)

/-- An oracle that reports no conflict makes every iteration a commit. -/
theorem readyFull_step
    (hfree : ∀ (o : σ) (x : Instr) (sch : List Instr),
      (env.hasResourceConflict o x sch options).1 = false)
    {s s' : SchedState σ} (hinv : Inv instructions dependencies s)
    (h : step env options instructions dependencies priority s = some s') :
    ReadyFull instructions dependencies s' := by
  apply readyFull_commit env options instructions dependencies priority hinv h
  obtain ⟨selected, hsel, hcase⟩ := step_some env options instructions dependencies priority h
  rcases hcase with ⟨hc, rfl⟩ | ⟨_, rfl⟩
  · rw [hfree] at hc; cases hc
  · intro e
    have := congrArg List.length e
    simp at this

/-- With non-negative priorities the loop exits only on an empty ready set. -/
theorem exit_ready_nil (hpos : ∀ x ∈ instructions, 0 ≤ priority x) {r : SchedState σ}
    (hinv : Inv instructions dependencies r)
    (h : step env options instructions dependencies priority r = none) : r.ready = [] := by
  rcases step_none env options instructions dependencies priority h with h | h
  · exact h
  · apply List.eq_nil_iff_forall_not_mem.2
    intro x hx
    have h1 := selectBest_none h x ((env.readyOrder_perm r.ready).mem_iff.2 hx)
    have h2 := hpos x (hinv.ready_sub x hx)
    omega

end Complete

/-- In an acyclic block, a state with a full but empty ready set has every
instruction scheduled. -/
theorem all_scheduled_of_acyclic {σ : Type} {dependsOn : Instr → Instr → Bool}
    {instructions : List Instr} (hac : Acyclic dependsOn instructions) {r : SchedState σ}
    (hinv : Inv instructions (buildDependencies dependsOn instructions) r)
    (hfull : ReadyFull instructions (buildDependencies dependsOn instructions) r)
    (hnil : r.ready = []) : ∀ x ∈ instructions, x ∈ r.schedule := by
  intro x hx
  by_contra hns
  obtain ⟨m, hm, hUm, hmin⟩ := acyclic_min hac (fun y => y ∉ r.schedule) hx hns
  have hmr : m ∈ r.ready := by
    apply hfull m hm
    · exact fun hc => hUm ((hinv.scheduled_iff m).1 hc)
    · intro d hd
      obtain ⟨h1, h2, h3, h4⟩ := mem_buildDependencies hd
      by_contra hdn
      exact hmin d ⟨h1, h2, fun e => h3 e.symm, h4⟩
        (fun hc => hdn ((hinv.scheduled_iff d).2 hc))
  rw [hnil] at hmr
  cases hmr

/-- A pass over an acyclic block of distinct instructions with non-negative
priorities and no resource conflict schedules every instruction. -/
theorem runPass_complete {σ Opts : Type} (env : Env σ Opts) (oracle : σ) (options : Opts)
    (instructions : List Instr)
    (hac : Acyclic env.dependsOn instructions)
    (hpos : ∀ x ∈ instructions,
      0 ≤ computePriorities env instructions (buildDependencies env.dependsOn instructions) x)
    (hfree : ∀ (o : σ) (x : Instr) (sch : List Instr),
      (env.hasResourceConflict o x sch options).1 = false) :
    ∃ r, runPass env oracle options instructions = some r ∧
      Inv instructions (buildDependencies env.dependsOn instructions) r ∧
      ∀ x ∈ instructions, x ∈ r.schedule := by
  obtain ⟨r, hr, hinv, hfull, hexit⟩ := runPass_exits env oracle options instructions
    (ReadyFull instructions (buildDependencies env.dependsOn instructions))
    (readyFull_init instructions _ oracle)
    (fun s s' hi _ hs => readyFull_step env options instructions _ _ hfree hi hs)
  refine ⟨r, hr, hinv, ?_⟩
  exact all_scheduled_of_acyclic hac hinv hfull
    (exit_ready_nil env options instructions _ _ hpos hinv hexit)

/-! ## The contract of `schedule_block` -/

theorem finalSchedule_of_runPass {σ Opts : Type} {env : Env σ Opts} {oracle : σ}
    {options : Opts} {instructions : List Instr} {r : SchedState σ}
    (h : runPass env oracle options instructions = some r) :
    finalSchedule env oracle options instructions = some r.schedule := by
  simp [finalSchedule, h]

theorem before_of_closed {σ : Type} {instructions : List Instr}
    {dependencies : Instr → List Instr} {r : SchedState σ}
    (hinv : Inv instructions dependencies r) {i : Instr} (hi : i ∈ r.schedule) :
    ∀ d ∈ dependencies i, Before r.schedule d i := by
  intro d hd
  obtain ⟨pre, post, e⟩ := List.append_of_mem hi
  exact ⟨pre, post, e, hinv.closed pre i post e d hd⟩

/-- C1, as stated, fails: on a block whose two instructions depend on each
other the schedule handed to `reorderInstructions` is empty, which is not a
permutation of the block. -/
theorem permutation_fails_on_cycle :
    ∃ schedule, finalSchedule (sampleEnv cycleDeps (fun _ => 1) noConflict) () () [1, 2]
      = some schedule ∧ ¬ schedule.Perm [1, 2] :=
  ⟨[], by decide, by simp⟩

/-- C1 (amended): for a block of pairwise distinct instructions whose
dependency predicate induces no cycle, with non-negative priorities and an
oracle that reports no conflict, the schedule handed to `reorderInstructions`
is a permutation of the block's instruction sequence, of the same length. -/
theorem schedule_is_permutation {σ Opts : Type} (env : Env σ Opts) (oracle : σ)
    (options : Opts) (instructions : List Instr)
    (hnd : instructions.Nodup)
    (hac : Acyclic env.dependsOn instructions)
    (hpos : ∀ x ∈ instructions, 0 ≤ priorityOf env instructions x)
    (hfree : ∀ (o : σ) (x : Instr) (sch : List Instr),
      (env.hasResourceConflict o x sch options).1 = false) :
    ∃ schedule, finalSchedule env oracle options instructions = some schedule ∧
      schedule.Perm instructions ∧ schedule.length = instructions.length := by
  obtain ⟨r, hr, hinv, hall⟩ := runPass_complete env oracle options instructions hac hpos hfree
  have hperm : r.schedule.Perm instructions :=
    (List.perm_ext_iff_of_nodup hinv.schedule_nodup hnd).2
      (fun x => ⟨hinv.schedule_sub x, hall x⟩)
  exact ⟨r.schedule, finalSchedule_of_runPass hr, hperm, hperm.length_eq⟩

/-- The permutation theorem of C1 at the chain block `[3, 2, 1]`. -/
theorem schedule_is_permutation_witness :
    [3, 2, 1].Nodup ∧ Acyclic chainDeps [3, 2, 1] ∧
    ∃ schedule, finalSchedule (sampleEnv chainDeps (fun _ => 1) noConflict) () () [3, 2, 1]
        = some schedule ∧
      schedule.Perm [3, 2, 1] ∧ schedule.length = [3, 2, 1].length :=
  ⟨by decide, acyclic_of_rank (fun x => x) (by decide),
    schedule_is_permutation (sampleEnv chainDeps (fun _ => 1) noConflict) () () [3, 2, 1]
      (by decide) (acyclic_of_rank (fun x => x) (by decide)) (by decide)
      (fun _ _ _ => rfl)⟩

/-- C2, as stated, fails: instruction `1` of the cyclic block has `2` in its
dependency list, yet `2` does not stand before `1` in the output schedule. -/
theorem dependency_order_fails_on_cycle :
    ∃ schedule, finalSchedule (sampleEnv cycleDeps (fun _ => 1) noConflict) () () [1, 2]
        = some schedule ∧
      1 ∈ [1, 2] ∧ 2 ∈ buildDependencies cycleDeps [1, 2] 1 ∧ ¬ Before schedule 2 1 :=
  ⟨[], by decide, by decide, by decide, by simp [Before]⟩

/-- C2 (amended): for every input, every instruction `i` that the output
schedule contains and every `d` in the dependency list built for `i`, `d`
stands strictly before `i` in the output schedule. -/
theorem dependency_order_of_scheduled {σ Opts : Type} (env : Env σ Opts) (oracle : σ)
    (options : Opts) (instructions : List Instr) :
    ∃ schedule, finalSchedule env oracle options instructions = some schedule ∧
      ∀ i ∈ schedule, ∀ d ∈ buildDependencies env.dependsOn instructions i,
        Before schedule d i := by
  obtain ⟨r, hr, hinv, _, _⟩ := runPass_exits env oracle options instructions
    (fun _ => True) trivial (fun _ _ _ _ _ => trivial)
  exact ⟨r.schedule, finalSchedule_of_runPass hr, fun i hi => before_of_closed hinv hi⟩

/-- C3: the pass at the failing input.  The oracle rejects instruction `7` the
first time it is selected and would accept it on every later query, but the
instruction is erased from the ready set, nothing brings it back, and the
final schedule of the one-instruction block is empty. -/
theorem stalled_instruction_is_dropped :
    (rejectOnce 7 false 7 [] ()).1 = true ∧
    (∀ sch, (rejectOnce 7 true 7 sch ()).1 = false) ∧
    finalSchedule (sampleEnv noDeps (fun _ => 1) (rejectOnce 7)) false () [7] = some [] ∧
    schedule_block (sampleEnv noDeps (fun _ => 1) (rejectOnce 7)) false ⟨[7]⟩ ()
      = some ⟨[]⟩ :=
  ⟨by decide, fun _ => rfl, by decide, by decide⟩

/-- C4, as stated, fails: on the cyclic block the ready set is empty with both
instructions unscheduled, and `schedule_block` returns normally, having
replaced the block's instructions with the empty schedule. -/
theorem no_failure_reported_on_cycle :
    ∃ r, runPass (sampleEnv cycleDeps (fun _ => 1) noConflict) () () [1, 2] = some r ∧
      r.ready = [] ∧ 1 ∉ r.schedule ∧ 2 ∉ r.schedule ∧
      schedule_block (sampleEnv cycleDeps (fun _ => 1) noConflict) () ⟨[1, 2]⟩ ()
        = some ⟨r.schedule⟩ :=
  ⟨⟨[], [], [], ()⟩, by decide, rfl, by simp, by simp, by decide⟩

/-- C4 (amended): `schedule_block` has no failure path.  For every input the
loop exits and the function returns normally after handing the schedule built
so far to `reorderInstructions`; when an instruction of the block is left
unscheduled at loop exit, that schedule is strictly shorter than the block. -/
theorem schedule_block_always_applies {σ Opts : Type} (env : Env σ Opts) (oracle : σ)
    (block : BasicBlock) (options : Opts) :
    ∃ r, runPass env oracle options block.getInstructions = some r ∧
      step env options block.getInstructions (depsOf env block.getInstructions)
        (priorityOf env block.getInstructions) r = none ∧
      schedule_block env oracle block options = some ⟨r.schedule⟩ ∧
      ((∃ x ∈ block.getInstructions, x ∉ r.schedule) →
        r.schedule.length < block.getInstructions.length) := by
  obtain ⟨r, hr, hinv, _, hexit⟩ := runPass_exits env oracle options block.getInstructions
    (fun _ => True) trivial (fun _ _ _ _ _ => trivial)
  refine ⟨r, hr, hexit, ?_, ?_⟩
  · simp [schedule_block, finalSchedule, hr, BasicBlock.reorderInstructions]
  · rintro ⟨x, hx, hns⟩
    have hsub : (x :: r.schedule).length ≤ block.getInstructions.length :=
      length_le_of_nodup_sub block.getInstructions
        (List.nodup_cons.2 ⟨hns, hinv.schedule_nodup⟩)
        (fun y hy => by
          rcases List.mem_cons.1 hy with rfl | hy
          · exact hx
          · exact hinv.schedule_sub y hy)
    simpa using hsub

/-- C5, as stated, fails: with an oracle that always rejects instruction `3`
the schedule has two of the block's three instructions, and the block's
instruction order is replaced by it all the same. -/
theorem incomplete_schedule_is_applied :
    finalSchedule (sampleEnv noDeps (fun _ => 1) (rejectAlways 3)) () () [1, 2, 3]
      = some [1, 2] ∧
    [1, 2].length ≠ [1, 2, 3].length ∧
    schedule_block (sampleEnv noDeps (fun _ => 1) (rejectAlways 3)) () ⟨[1, 2, 3]⟩ ()
      = some ⟨[1, 2]⟩ ∧
    (⟨[1, 2]⟩ : BasicBlock) ≠ ⟨[1, 2, 3]⟩ :=
  ⟨by decide, by decide, by decide, by decide⟩

/-- C5 (amended): `schedule_block` calls `reorderInstructions` unconditionally.
For every input the block after the call holds the schedule the loop has
built, so whenever the length of that schedule differs from the block's
instruction count the block's instruction order has been changed. -/
theorem applier_runs_unconditionally {σ Opts : Type} (env : Env σ Opts) (oracle : σ)
    (block : BasicBlock) (options : Opts) :
    ∃ schedule, finalSchedule env oracle options block.getInstructions = some schedule ∧
      schedule_block env oracle block options = some (block.reorderInstructions schedule) ∧
      (block.reorderInstructions schedule).getInstructions = schedule ∧
      (schedule.length ≠ block.getInstructions.length →
        schedule_block env oracle block options ≠ some block) := by
  obtain ⟨r, hr, _, _, _⟩ := runPass_exits env oracle options block.getInstructions
    (fun _ => True) trivial (fun _ _ _ _ _ => trivial)
  have hf := finalSchedule_of_runPass hr
  refine ⟨r.schedule, hf, by simp [schedule_block, hf], rfl, ?_⟩
  intro hlen hb
  simp only [schedule_block, hf, Option.map_some', Option.some.injEq] at hb
  apply hlen
  rw [← hb]
  rfl

theorem scheduleLoop_succ {σ Opts : Type} (env : Env σ Opts) (options : Opts)
    (instructions : List Instr) (dependencies : Instr → List Instr)
    (priority : Instr → Int) :
    ∀ (fuel : Nat) (s r : SchedState σ),
      scheduleLoop env options instructions dependencies priority fuel s = some r →
      scheduleLoop env options instructions dependencies priority (fuel + 1) s = some r := by
  intro fuel
  induction fuel with
  | zero => intro s r h; simp [scheduleLoop] at h
  | succ fuel ih =>
    intro s r h
    unfold scheduleLoop at h ⊢
    cases hstep : step env options instructions dependencies priority s with
    | none => rw [hstep] at h; exact h
    | some s' =>
      rw [hstep] at h
      exact ih s' r h

theorem scheduleLoop_mono {σ Opts : Type} (env : Env σ Opts) (options : Opts)
    (instructions : List Instr) (dependencies : Instr → List Instr)
    (priority : Instr → Int) {fuel fuel' : Nat} (hle : fuel ≤ fuel') {s r : SchedState σ}
    (h : scheduleLoop env options instructions dependencies priority fuel s = some r) :
    scheduleLoop env options instructions dependencies priority fuel' s = some r := by
  induction hle with
  | refl => exact h
  | step _ ih => exact scheduleLoop_succ env options instructions dependencies priority _ s r ih

/-- C6: for every block, every collaborator and every oracle, the scheduling
loop exits: from the initial state it reaches an exit state within
`(n + 1) * (n + 1)` iterations for a block of `n` instructions, and more fuel
gives the same state.  Every iteration that does not exit either appends an
instruction that was not yet scheduled or leaves the schedule alone and makes
the ready set strictly smaller. -/
theorem loop_terminates {σ Opts : Type} (env : Env σ Opts) (oracle : σ) (options : Opts)
    (instructions : List Instr) :
    (∃ r, (∀ fuel, loopFuel instructions.length ≤ fuel →
          scheduleLoop env options instructions (depsOf env instructions)
            (priorityOf env instructions) fuel
            (initState instructions (depsOf env instructions) oracle) = some r) ∧
        step env options instructions (depsOf env instructions)
          (priorityOf env instructions) r = none) ∧
    ∀ s s', Reachable env options instructions (depsOf env instructions)
        (priorityOf env instructions) oracle s →
      step env options instructions (depsOf env instructions)
        (priorityOf env instructions) s = some s' →
      (∃ x, x ∈ instructions ∧ x ∉ s.schedule ∧ s'.schedule = s.schedule ++ [x]) ∨
      (s'.schedule = s.schedule ∧ s'.ready.length < s.ready.length) := by
  constructor
  · obtain ⟨r, hr, _, _, hexit⟩ := runPass_exits env oracle options instructions
      (fun _ => True) trivial (fun _ _ _ _ _ => trivial)
    refine ⟨r, ?_, hexit⟩
    intro fuel hle
    exact scheduleLoop_mono env options instructions _ _ hle hr
  · intro s s' hreach hstep
    rcases step_progress env options instructions _ _
      (reachable_inv env options instructions _ _ hreach) hstep with
      ⟨x, hx, hns, e, _⟩ | ⟨e, _, hlen⟩
    · exact Or.inl ⟨x, hx, hns, e⟩
    · exact Or.inr ⟨e, by omega⟩

/-- C9, as stated, fails: the only instruction of the block has priority `-1`,
the selection scan selects nothing, and the schedule is empty. -/
theorem single_instruction_unscheduled :
    priorityOf (sampleEnv noDeps (fun _ => -1) noConflict) [5] 5 = -1 ∧
    finalSchedule (sampleEnv noDeps (fun _ => -1) noConflict) () () [5] = some [] ∧
    schedule_block (sampleEnv noDeps (fun _ => -1) noConflict) () ⟨[5]⟩ () = some ⟨[]⟩ :=
  ⟨by decide, by decide, by decide⟩

/-- C9 (amended): for every block that contains exactly one instruction, whose
computed priority is non-negative and which the oracle accepts against the
empty schedule, `schedule_block` produces the one-element order consisting of
that instruction. -/
theorem single_instruction_block {σ Opts : Type} (env : Env σ Opts) (oracle : σ)
    (options : Opts) (x : Instr)
    (hpos : 0 ≤ priorityOf env [x] x)
    (hacc : (env.hasResourceConflict oracle x [] options).1 = false) :
    schedule_block env oracle ⟨[x]⟩ options = some ⟨[x]⟩ := by
  have hd : buildDependencies env.dependsOn [x] x = [] := by
    simp [buildDependencies, scanOthers]
  have hro : env.readyOrder [x] = [x] := List.perm_singleton.1 (env.readyOrder_perm [x])
  have hsel : (selectBest (priorityOf env [x]) [x]).1 = some x := by
    have : priorityOf env [x] x > -1 := by omega
    simp [selectBest, this]
  have h0 : initState [x] (buildDependencies env.dependsOn [x]) oracle
      = ⟨[], [], [x], oracle⟩ := by
    simp [initState, initReady, hd, setInsert]
  have h1 : step env options [x] (buildDependencies env.dependsOn [x]) (priorityOf env [x])
      ⟨[], [], [x], oracle⟩
      = some ⟨[x], [x], [], (env.hasResourceConflict oracle x [] options).2⟩ := by
    simp [step, hro, hsel, hacc, setInsert, setErase, updateReady]
  have h2 : step env options [x] (buildDependencies env.dependsOn [x]) (priorityOf env [x])
      ⟨[x], [x], [], (env.hasResourceConflict oracle x [] options).2⟩ = none := by
    simp [step]
  have h3 : runPass env oracle options [x]
      = some ⟨[x], [x], [], (env.hasResourceConflict oracle x [] options).2⟩ := by
    unfold runPass
    simp only [loopFuel, List.length_singleton]
    rw [h0]
    show scheduleLoop env options [x] _ (priorityOf env [x]) (2 + 2) _ = _
    unfold scheduleLoop
    rw [h1]
    simp only
    unfold scheduleLoop
    rw [h2]
  simp [schedule_block, finalSchedule, BasicBlock.getInstructions,
    BasicBlock.reorderInstructions, h3]

/-- The single-instruction theorem of C9 at the block `[5]` with priority `2`. -/
theorem single_instruction_block_witness :
    0 ≤ priorityOf (sampleEnv noDeps (fun _ => 2) noConflict) [5] 5 ∧
    ((sampleEnv noDeps (fun _ => 2) noConflict).hasResourceConflict () 5 [] ()).1 = false ∧
    schedule_block (sampleEnv noDeps (fun _ => 2) noConflict) () ⟨[5]⟩ () = some ⟨[5]⟩ :=
  ⟨by decide, rfl,
    single_instruction_block (sampleEnv noDeps (fun _ => 2) noConflict) () () 5
      (by decide) rfl⟩

/-- C10: in a block of pairwise distinct instructions, for distinct
instructions `a` and `b` of the block, the dependency list of `a` is the block
filtered by `a.dependsOn`, without `a` itself: it holds `b` exactly when
`a.dependsOn(b)`, holds it once, keeps block order and never holds `a`; and
whether `a` is in the list of `b` is decided by `b.dependsOn(a)` alone. -/
theorem dependency_graph_builder (dependsOn : Instr → Instr → Bool)
    (instructions : List Instr) (a b : Instr) (hnd : instructions.Nodup)
    (ha : a ∈ instructions) (hb : b ∈ instructions) (hab : a ≠ b) :
    buildDependencies dependsOn instructions a
      = instructions.filter (fun c => decide (c ≠ a) && dependsOn a c) ∧
    (b ∈ buildDependencies dependsOn instructions a ↔ dependsOn a b = true) ∧
    (buildDependencies dependsOn instructions a).count b
      = (if dependsOn a b = true then 1 else 0) ∧
    (buildDependencies dependsOn instructions a).Sublist instructions ∧
    a ∉ buildDependencies dependsOn instructions a ∧
    (a ∈ buildDependencies dependsOn instructions b ↔ dependsOn b a = true) := by
  have ea := @buildDependencies_of_nodup dependsOn instructions hnd a ha
  have eb := @buildDependencies_of_nodup dependsOn instructions hnd b hb
  have hba : b ≠ a := fun e => hab e.symm
  have hmem : b ∈ buildDependencies dependsOn instructions a ↔ dependsOn a b = true := by
    rw [ea]
    simp [directDeps, hb, hba]
  have hnda : (buildDependencies dependsOn instructions a).Nodup := by
    rw [ea]
    exact hnd.filter _
  refine ⟨ea, hmem, ?_, ?_, ?_, ?_⟩
  · by_cases h : dependsOn a b = true
    · rw [if_pos h]
      exact List.count_eq_one_of_mem hnda (hmem.2 h)
    · rw [if_neg h]
      exact List.count_eq_zero_of_not_mem (fun hc => h (hmem.1 hc))
  · rw [ea]
    exact List.filter_sublist _
  · rw [ea]
    simp [directDeps]
  · rw [eb]
    simp [directDeps, ha, hab]

/-- The builder theorem of C10 at the block `[3, 1, 2]`, for `a = 2` and `b = 1`. -/
theorem dependency_graph_builder_witness :
    [3, 1, 2].Nodup ∧ 2 ∈ [3, 1, 2] ∧ 1 ∈ [3, 1, 2] ∧ (2 : Instr) ≠ 1 ∧
    buildDependencies chainDeps [3, 1, 2] 2
      = [3, 1, 2].filter (fun c => decide (c ≠ 2) && chainDeps 2 c) ∧
    (1 ∈ buildDependencies chainDeps [3, 1, 2] 2 ↔ chainDeps 2 1 = true) ∧
    (buildDependencies chainDeps [3, 1, 2] 2).count 1
      = (if chainDeps 2 1 = true then 1 else 0) ∧
    (buildDependencies chainDeps [3, 1, 2] 2).Sublist [3, 1, 2] ∧
    2 ∉ buildDependencies chainDeps [3, 1, 2] 2 ∧
    (2 ∈ buildDependencies chainDeps [3, 1, 2] 1 ↔ chainDeps 1 2 = true) :=
  ⟨by decide, by decide, by decide, by decide,
    dependency_graph_builder chainDeps [3, 1, 2] 2 1 (by decide) (by decide) (by decide)
      (by decide)⟩

/-! ## The visiting order of the ready set -/

/-- Two enumerations of the same set select the same instruction when no two
members of the set have the same priority. -/
theorem selectBest_perm {priority : Instr → Int} {l₁ l₂ : List Instr} (hperm : l₁.Perm l₂)
    (hinj : ∀ a ∈ l₁, ∀ b ∈ l₁, priority a = priority b → a = b) :
    (selectBest priority l₁).1 = (selectBest priority l₂).1 := by
  cases h1 : (selectBest priority l₁).1 with
  | none =>
    cases h2 : (selectBest priority l₂).1 with
    | none => rfl
    | some x₂ =>
      obtain ⟨hm, hp, _⟩ := selectBest_some h2
      have := selectBest_none h1 x₂ (hperm.mem_iff.2 hm)
      omega
  | some x₁ =>
    obtain ⟨hm1, hp1, hmax1⟩ := selectBest_some h1
    cases h2 : (selectBest priority l₂).1 with
    | none =>
      have := selectBest_none h2 x₁ (hperm.mem_iff.1 hm1)
      omega
    | some x₂ =>
      obtain ⟨hm2, _, hmax2⟩ := selectBest_some h2
      have hm2' : x₂ ∈ l₁ := hperm.mem_iff.2 hm2
      have ha := hmax1 x₂ hm2'
      have hb := hmax2 x₁ (hperm.mem_iff.1 hm1)
      rw [hinj x₁ hm1 x₂ hm2' (le_antisymm hb ha)]

theorem step_withOrder {σ Opts : Type} (env : Env σ Opts)
    (order : List Instr → List Instr) (horder : ∀ l : List Instr, (order l).Perm l)
    (options : Opts) (instructions : List Instr) (dependencies : Instr → List Instr)
    (priority : Instr → Int)
    (hinj : ∀ a ∈ instructions, ∀ b ∈ instructions, priority a = priority b → a = b)
    {s : SchedState σ} (hsub : ∀ x ∈ s.ready, x ∈ instructions) :
    step (env.withOrder order horder) options instructions dependencies priority s
      = step env options instructions dependencies priority s := by
  have e : (selectBest priority (order s.ready)).1
      = (selectBest priority (env.readyOrder s.ready)).1 := by
    apply selectBest_perm ((horder s.ready).trans (env.readyOrder_perm s.ready).symm)
    intro a ha b hb
    exact hinj a (hsub a ((horder s.ready).mem_iff.1 ha)) b
      (hsub b ((horder s.ready).mem_iff.1 hb))
  unfold step
  show (if s.ready.isEmpty then none
    else match (selectBest priority (order s.ready)).1 with
      | none => none
      | some selected => _) = _
  rw [e]
  rfl

theorem scheduleLoop_withOrder {σ Opts : Type} (env : Env σ Opts)
    (order : List Instr → List Instr) (horder : ∀ l : List Instr, (order l).Perm l)
    (options : Opts) (instructions : List Instr) (dependencies : Instr → List Instr)
    (priority : Instr → Int)
    (hinj : ∀ a ∈ instructions, ∀ b ∈ instructions, priority a = priority b → a = b) :
    ∀ (fuel : Nat) (s : SchedState σ), Inv instructions dependencies s →
      scheduleLoop (env.withOrder order horder) options instructions dependencies priority
          fuel s
        = scheduleLoop env options instructions dependencies priority fuel s := by
  intro fuel
  induction fuel with
  | zero => intro s _; rfl
  | succ fuel ih =>
    intro s hinv
    unfold scheduleLoop
    rw [step_withOrder env order horder options instructions dependencies priority hinj
      hinv.ready_sub]
    cases hstep : step env options instructions dependencies priority s with
    | none => rfl
    | some s' =>
      exact ih s' (inv_step env options instructions dependencies priority hinv hstep)

/-- C8, as stated, fails: two instructions of equal priority are scheduled in
the order in which the ready set presents them, so two visiting orders of the
same set give two different outputs for the same block and options. -/
theorem output_depends_on_ready_order :
    schedule_block (sampleEnv noDeps (fun _ => 1) noConflict) () ⟨[1, 2]⟩ ()
      = some ⟨[1, 2]⟩ ∧
    schedule_block
      ((sampleEnv noDeps (fun _ => 1) noConflict).withOrder List.reverse List.reverse_perm)
      () ⟨[1, 2]⟩ () = some ⟨[2, 1]⟩ :=
  ⟨by decide, by decide⟩

/-- C8 (amended): when no two distinct instructions of the block have the same
priority, the output of `schedule_block` for a block, options and
collaborators does not depend on the order in which the ready set is
enumerated. -/
theorem output_independent_of_ready_order {σ Opts : Type} (env : Env σ Opts)
    (order : List Instr → List Instr) (horder : ∀ l : List Instr, (order l).Perm l)
    (oracle : σ) (block : BasicBlock) (options : Opts)
    (hinj : ∀ a ∈ block.getInstructions, ∀ b ∈ block.getInstructions,
      priorityOf env block.getInstructions a = priorityOf env block.getInstructions b →
      a = b) :
    schedule_block (env.withOrder order horder) oracle block options
      = schedule_block env oracle block options := by
  have h : runPass (env.withOrder order horder) oracle options block.getInstructions
      = runPass env oracle options block.getInstructions :=
    scheduleLoop_withOrder env order horder options block.getInstructions
      (depsOf env block.getInstructions) (priorityOf env block.getInstructions) hinj _ _
      (inv_init block.getInstructions _ oracle)
  unfold schedule_block finalSchedule
  rw [h]

/-- The independence theorem of C8 at the block `[1, 2, 3]` with priorities `1, 2, 3`. -/
theorem output_independent_of_ready_order_witness :
    (∀ a ∈ [1, 2, 3], ∀ b ∈ [1, 2, 3],
      priorityOf (sampleEnv noDeps (fun x => x) noConflict) [1, 2, 3] a
        = priorityOf (sampleEnv noDeps (fun x => x) noConflict) [1, 2, 3] b → a = b) ∧
    schedule_block
      ((sampleEnv noDeps (fun x => x) noConflict).withOrder List.reverse List.reverse_perm)
      () ⟨[1, 2, 3]⟩ ()
      = schedule_block (sampleEnv noDeps (fun x => x) noConflict) () ⟨[1, 2, 3]⟩ () :=
  ⟨by decide,
    output_independent_of_ready_order (sampleEnv noDeps (fun x => x) noConflict)
      List.reverse List.reverse_perm () ⟨[1, 2, 3]⟩ () (by decide)⟩

/-! ## Blocks without dependencies -/

theorem deps_nil_of_no_dependency {dependsOn : Instr → Instr → Bool}
    {instructions : List Instr}
    (hnone : ∀ a ∈ instructions, ∀ b ∈ instructions, a ≠ b → dependsOn a b = false)
    (x : Instr) : buildDependencies dependsOn instructions x = [] := by
  apply List.eq_nil_iff_forall_not_mem.2
  intro d hd
  obtain ⟨h1, h2, h3, h4⟩ := mem_buildDependencies hd
  rw [hnone x h1 d h2 (fun e => h3 e.symm)] at h4
  cases h4

theorem acyclic_of_no_dependency {dependsOn : Instr → Instr → Bool}
    {instructions : List Instr}
    (hnone : ∀ a ∈ instructions, ∀ b ∈ instructions, a ≠ b → dependsOn a b = false) :
    Acyclic dependsOn instructions :=
  acyclic_of_rank (fun _ => 0) (fun a ha b hb hab hd => by
    rw [hnone a ha b hb hab] at hd; cases hd)

theorem initReady_of_no_dependency {dependencies : Instr → List Instr}
    (hnil : ∀ x, dependencies x = []) :
    ∀ (l acc : List Instr), (acc ++ l).Nodup →
      l.foldl
        (fun ready instr =>
          if (dependencies instr).isEmpty then setInsert ready instr else ready)
        acc = acc ++ l := by
  intro l
  induction l with
  | nil => intro acc _; simp
  | cons a rest ih =>
    intro acc hnd
    rw [List.foldl_cons]
    have ha : a ∉ acc := by
      intro hc
      rw [List.nodup_append] at hnd
      exact hnd.2.2 hc (List.mem_cons_self _ _)
    have e : setInsert acc a = acc ++ [a] := by simp [setInsert, ha]
    simp only [hnil a, List.isEmpty_nil, if_true]
    rw [e, ih (acc ++ [a]) (by simpa using hnd)]
    simp

theorem updateReady_of_present {dependencies : Instr → List Instr}
    {scheduled ready : List Instr} :
    ∀ l : List Instr, (∀ x ∈ l, x ∉ scheduled → x ∈ ready) →
      updateReady l dependencies scheduled ready = ready := by
  intro l
  induction l with
  | nil => intro _; rfl
  | cons a rest ih =>
    intro h
    have ih' := ih (fun x hx => h x (List.mem_cons_of_mem _ hx))
    unfold updateReady at ih' ⊢
    rw [List.foldl_cons]
    by_cases h1 : a ∈ scheduled
    · rw [if_pos h1]; exact ih'
    · rw [if_neg h1]
      have hr : a ∈ ready := h a (List.mem_cons_self _ _) h1
      have e : setInsert ready a = ready := by simp [setInsert, hr]
      split
      · rw [e]; exact ih'
      · exact ih'

theorem erase_filter_unscheduled {instructions scheduled : List Instr} {x : Instr}
    (hnd : instructions.Nodup) :
    setErase (instructions.filter (fun y => decide (y ∉ scheduled))) x
      = instructions.filter (fun y => decide (y ∉ setInsert scheduled x)) := by
  unfold setErase
  rw [(hnd.filter _).erase_eq_filter, List.filter_filter]
  apply List.filter_congr
  intro y _
  simp only [mem_setInsert, not_or]
  by_cases h1 : y = x <;> by_cases h2 : y ∈ scheduled <;> simp [h1, h2]

theorem pair_sublist_of_split {l pre post : List Instr} {x y : Instr}
    (h : l = pre ++ x :: post) (hy : y ∈ post) : List.Sublist [x, y] l := by
  rw [h]
  exact ((List.singleton_sublist.2 hy).cons₂ x).trans (List.sublist_append_right _ _)

section NoDependency

variable {σ Opts : Type} (env : Env σ Opts) (options : Opts) (instructions : List Instr)
  (dependencies : Instr → List Instr) (priority : Instr → Int)

theorem sortedInv_init (hnil : ∀ x, dependencies x = []) (oracle : σ) :
    SortedInv env instructions dependencies priority
      (initState instructions dependencies oracle) := by
  refine ⟨readyFull_init instructions dependencies oracle, List.Pairwise.nil, ?_, ?_⟩
  · intro x hx; cases hx
  · intro _ hnd
    refine ⟨?_, List.Pairwise.nil, ?_⟩
    · show initReady instructions dependencies = _
      unfold initReady
      rw [initReady_of_no_dependency hnil instructions [] (by simpa using hnd)]
      simp [initState]
    · intro x hx; cases hx

theorem sortedInv_step (hnil : ∀ x, dependencies x = [])
    (hfree : ∀ (o : σ) (x : Instr) (sch : List Instr),
      (env.hasResourceConflict o x sch options).1 = false)
    {s s' : SchedState σ} (hinv : Inv instructions dependencies s)
    (hs : SortedInv env instructions dependencies priority s)
    (h : step env options instructions dependencies priority s = some s') :
    SortedInv env instructions dependencies priority s' := by
  obtain ⟨hfull, hsorted, hbound, hlex⟩ := hs
  have hfull' := readyFull_step env options instructions dependencies priority hfree hinv h
  obtain ⟨selected, hsel, hcase⟩ := step_some env options instructions dependencies priority h
  have hmem : selected ∈ s.ready := selected_mem_ready env priority hsel
  rcases hcase with ⟨hc, _⟩ | ⟨_, rfl⟩
  · rw [hfree] at hc; cases hc
  · have hsub : ∀ y, y ∈ updateReady instructions dependencies
        (setInsert s.scheduled selected) (setErase s.ready selected) →
        y ∈ s.ready ∧ y ≠ selected := by
      intro y hy
      rcases ((updateReady_spec instructions dependencies (setInsert s.scheduled selected)
        (setErase s.ready selected) (nodup_setErase _ hinv.ready_nodup)).2 y).1 hy with
        hy | ⟨hy1, hy2, _⟩
      · exact (mem_setErase hinv.ready_nodup).1 hy
      · rw [mem_setInsert, not_or] at hy2
        refine ⟨hfull y hy1 hy2.1 ?_, hy2.2⟩
        intro d hd
        rw [hnil y] at hd
        cases hd
    refine ⟨hfull', ?_, ?_, ?_⟩
    · show (s.schedule ++ [selected]).Pairwise _
      rw [List.pairwise_append]
      refine ⟨hsorted, List.pairwise_singleton _ _, ?_⟩
      intro a ha b hb
      rw [List.mem_singleton.1 hb]
      exact hbound a ha selected hmem
    · intro x hx y hy
      obtain ⟨hy1, _⟩ := hsub y hy
      rcases List.mem_append.1 hx with hx | hx
      · exact hbound x hx y hy1
      · rw [List.mem_singleton.1 hx]
        exact (selectBest_some hsel).2.2 y ((env.readyOrder_perm s.ready).mem_iff.2 hy1)
    · intro hid hnd
      obtain ⟨hready, hlexs, hlexb⟩ := hlex hid hnd
      have hready' : updateReady instructions dependencies (setInsert s.scheduled selected)
          (setErase s.ready selected)
          = instructions.filter (fun y => decide (y ∉ setInsert s.scheduled selected)) := by
        rw [updateReady_of_present, hready, erase_filter_unscheduled hnd]
        intro x hx hns
        rw [hready, erase_filter_unscheduled hnd]
        simp [hx, hns]
      have hfirst : ∀ y ∈ s.ready, y ≠ selected → priority y < priority selected ∨
          (priority y = priority selected ∧ List.Sublist [selected, y] instructions) := by
        intro y hy hne
        rcases selectBest_cases priority (env.readyOrder s.ready) with
          ⟨e, _⟩ | ⟨pre, z, post, e1, e2, _, hpre, hpost⟩
        · rw [e] at hsel; cases hsel
        · rw [e2] at hsel
          cases hsel
          rw [hid] at e1
          have hy' := hy
          rw [e1] at hy'
          rcases List.mem_append.1 hy' with hy' | hy'
          · exact Or.inl (hpre y hy')
          · rcases List.mem_cons.1 hy' with hy' | hy'
            · exact absurd hy' hne
            · rcases lt_or_eq_of_le (hpost y hy') with hlt | heq
              · exact Or.inl hlt
              · refine Or.inr ⟨heq, (pair_sublist_of_split e1 hy').trans ?_⟩
                rw [hready]
                exact List.filter_sublist _
      refine ⟨hready', ?_, ?_⟩
      · show (s.schedule ++ [selected]).Pairwise _
        rw [List.pairwise_append]
        refine ⟨hlexs, List.pairwise_singleton _ _, ?_⟩
        intro a ha b hb
        rw [List.mem_singleton.1 hb]
        exact hlexb a ha selected hmem
      · intro x hx y hy
        obtain ⟨hy1, hy2⟩ := hsub y hy
        rcases List.mem_append.1 hx with hx | hx
        · exact hlexb x hx y hy1
        · rw [List.mem_singleton.1 hx]
          exact hfirst y hy1 hy2

end NoDependency

/-- C7, as stated, fails: instructions `1` and `2` have the same priority and
`1` stands first in the block, but a ready set that presents `2` first makes
the schedule start with `2`. -/
theorem tie_not_in_block_order :
    ∃ schedule,
      finalSchedule
        ((sampleEnv noDeps (fun _ => 1) noConflict).withOrder List.reverse
          List.reverse_perm) () () [1, 2] = some schedule ∧
      priorityOf (sampleEnv noDeps (fun _ => 1) noConflict) [1, 2] 1
        = priorityOf (sampleEnv noDeps (fun _ => 1) noConflict) [1, 2] 2 ∧
      List.Sublist [1, 2] [1, 2] ∧ ¬ List.Sublist [1, 2] schedule :=
  ⟨[2, 1], by decide, by decide, by decide, by decide⟩

/-- C7 (amended): for every block of pairwise distinct instructions in which
no instruction depends on any other, with non-negative priorities and an
oracle that reports no conflict, the output schedule lists all the
instructions of the block in non-increasing priority order; when the ready
set is visited in insertion order, instructions of equal priority appear in
their original block order. -/
theorem no_dependency_schedule {σ Opts : Type} (env : Env σ Opts) (oracle : σ)
    (options : Opts) (instructions : List Instr)
    (hnd : instructions.Nodup)
    (hnone : ∀ a ∈ instructions, ∀ b ∈ instructions, a ≠ b → env.dependsOn a b = false)
    (hpos : ∀ x ∈ instructions, 0 ≤ priorityOf env instructions x)
    (hfree : ∀ (o : σ) (x : Instr) (sch : List Instr),
      (env.hasResourceConflict o x sch options).1 = false) :
    ∃ schedule, finalSchedule env oracle options instructions = some schedule ∧
      schedule.Perm instructions ∧
      schedule.Pairwise
        (fun x y => priorityOf env instructions y ≤ priorityOf env instructions x) ∧
      ((∀ l, env.readyOrder l = l) →
        schedule.Pairwise (fun x y =>
          priorityOf env instructions y < priorityOf env instructions x ∨
          (priorityOf env instructions y = priorityOf env instructions x ∧
            List.Sublist [x, y] instructions))) := by
  have hnil := deps_nil_of_no_dependency hnone
  obtain ⟨r, hr, hinv, hs, hexit⟩ := runPass_exits env oracle options instructions
    (SortedInv env instructions (depsOf env instructions) (priorityOf env instructions))
    (sortedInv_init env instructions _ _ hnil oracle)
    (fun s s' hi hp hstep => sortedInv_step env options instructions _ _ hnil hfree hi hp hstep)
  have hall := all_scheduled_of_acyclic (acyclic_of_no_dependency hnone) hinv hs.1
    (exit_ready_nil env options instructions _ _ hpos hinv hexit)
  refine ⟨r.schedule, finalSchedule_of_runPass hr, ?_, hs.2.1, ?_⟩
  · exact (List.perm_ext_iff_of_nodup hinv.schedule_nodup hnd).2
      (fun x => ⟨hinv.schedule_sub x, hall x⟩)
  · intro hid
    exact (hs.2.2.2 hid hnd).2.1

/-- The no-dependency theorem of C7 at the block `[1, 2, 3, 4]`, where instruction `3`
has priority `9` and the others priority `4`; the ready set is visited in
insertion order. -/
theorem no_dependency_schedule_witness :
    [1, 2, 3, 4].Nodup ∧
    ∃ schedule,
      finalSchedule (sampleEnv noDeps (fun x => if x = 3 then 9 else 4) noConflict) () ()
        [1, 2, 3, 4] = some schedule ∧
      schedule.Perm [1, 2, 3, 4] ∧
      schedule.Pairwise (fun x y =>
        priorityOf (sampleEnv noDeps (fun x => if x = 3 then 9 else 4) noConflict)
          [1, 2, 3, 4] y
        ≤ priorityOf (sampleEnv noDeps (fun x => if x = 3 then 9 else 4) noConflict)
          [1, 2, 3, 4] x) ∧
      schedule.Pairwise (fun x y =>
        priorityOf (sampleEnv noDeps (fun x => if x = 3 then 9 else 4) noConflict)
          [1, 2, 3, 4] y
        < priorityOf (sampleEnv noDeps (fun x => if x = 3 then 9 else 4) noConflict)
          [1, 2, 3, 4] x ∨
        (priorityOf (sampleEnv noDeps (fun x => if x = 3 then 9 else 4) noConflict)
          [1, 2, 3, 4] y
        = priorityOf (sampleEnv noDeps (fun x => if x = 3 then 9 else 4) noConflict)
          [1, 2, 3, 4] x ∧ List.Sublist [x, y] [1, 2, 3, 4])) := by
  obtain ⟨schedule, h1, h2, h3, h4⟩ :=
    no_dependency_schedule (sampleEnv noDeps (fun x => if x = 3 then 9 else 4) noConflict)
      () () [1, 2, 3, 4] (by decide) (fun _ _ _ _ _ => rfl) (by decide)
      (fun _ _ _ => rfl)
  exact ⟨by decide, schedule, h1, h2, h3, h4 (fun _ => rfl)⟩

/-! ## The priority map -/

theorem selectBest_congr {p q : Instr → Int} {l : List Instr}
    (h : ∀ x ∈ l, p x = q x) : selectBest p l = selectBest q l := by
  unfold selectBest
  apply List.foldl_ext
  intro acc b hb
  rw [h b hb]

theorem step_congr {σ Opts : Type} (env : Env σ Opts) (options : Opts)
    (instructions : List Instr) (dependencies : Instr → List Instr) {p q : Instr → Int}
    {s : SchedState σ} (h : ∀ x ∈ s.ready, p x = q x) :
    step env options instructions dependencies p s
      = step env options instructions dependencies q s := by
  have e : selectBest p (env.readyOrder s.ready) = selectBest q (env.readyOrder s.ready) :=
    selectBest_congr (fun x hx => h x ((env.readyOrder_perm s.ready).mem_iff.1 hx))
  unfold step
  rw [e]

theorem scheduleLoop_congr {σ Opts : Type} (env : Env σ Opts) (options : Opts)
    (instructions : List Instr) (dependencies : Instr → List Instr) {p q : Instr → Int}
    (h : ∀ x ∈ instructions, p x = q x) :
    ∀ (fuel : Nat) (s : SchedState σ), Inv instructions dependencies s →
      scheduleLoop env options instructions dependencies p fuel s
        = scheduleLoop env options instructions dependencies q fuel s := by
  intro fuel
  induction fuel with
  | zero => intro s _; rfl
  | succ fuel ih =>
    intro s hinv
    unfold scheduleLoop
    rw [step_congr env options instructions dependencies
      (fun x hx => h x (hinv.ready_sub x hx))]
    cases hstep : step env options instructions dependencies q s with
    | none => rfl
    | some s' =>
      have hstep' : step env options instructions dependencies p s = some s' := by
        rw [step_congr env options instructions dependencies
          (fun x hx => h x (hinv.ready_sub x hx))]
        exact hstep
      exact ih s' (inv_step env options instructions dependencies p hinv hstep')

theorem wrapInt_of_inRange {z : Int} (h : InIntRange z) : wrapInt z = z := by
  obtain ⟨h1, h2⟩ := h
  unfold INT_MIN at h1
  unfold INT_MAX at h2
  unfold wrapInt
  omega

/-- When no addition overflows, the score is the sum of the three estimates. -/
theorem score_of_sumInRange {σ Opts : Type} (env : Env σ Opts)
    (dependencies : Instr → List Instr) {x : Instr} (h : SumInRange env dependencies x) :
    score env dependencies x = prioritySum env dependencies x := by
  obtain ⟨h1, h2, h3⟩ := h
  unfold score prioritySum addInt
  rw [wrapInt_of_inRange h1, Int.zero_add, wrapInt_of_inRange h2, wrapInt_of_inRange h3]

/-- The model at an overflowing input: with resource pressure `1` and latency
`INT_MAX` the stored priority of the instruction is `INT_MIN`, and the
instruction is never selected. -/
theorem overflowing_priority_is_never_selected :
    priorityOf overflowEnv [1] 1 = INT_MIN ∧
    prioritySum overflowEnv (depsOf overflowEnv [1]) 1 = 2147483648 ∧
    finalSchedule overflowEnv () () [1] = some [] :=
  ⟨by decide, by decide, by decide⟩

/-- C11: for each instruction of the block, the priority the scheduler uses is
`computeCriticalPathLength(instr, dependencies) + estimateResourcePressure(instr)
+ getLatency(instr)` as lines 33-39 add them up in `int`, by one formula for
all instructions, and it is the mathematical sum of the three estimates
whenever none of the three additions overflows; the map is filled before the
loop, and the whole loop runs as it would on that fixed formula. -/
theorem priority_is_sum_of_estimates {σ Opts : Type} (env : Env σ Opts) (oracle : σ)
    (options : Opts) (instructions : List Instr) :
    (∀ x ∈ instructions,
      computePriorities env instructions (buildDependencies env.dependsOn instructions) x
        = addInt
            (addInt
              (addInt 0
                (env.computeCriticalPathLength x
                  (buildDependencies env.dependsOn instructions)))
              (env.estimateResourcePressure x))
            (env.getLatency x)) ∧
    (∀ x ∈ instructions,
      SumInRange env (buildDependencies env.dependsOn instructions) x →
      computePriorities env instructions (buildDependencies env.dependsOn instructions) x
        = env.computeCriticalPathLength x (buildDependencies env.dependsOn instructions)
          + env.estimateResourcePressure x + env.getLatency x) ∧
    runPass env oracle options instructions
      = scheduleLoop env options instructions (buildDependencies env.dependsOn instructions)
          (score env (buildDependencies env.dependsOn instructions))
          (loopFuel instructions.length)
          (initState instructions (buildDependencies env.dependsOn instructions) oracle) ∧
    ((∀ x ∈ instructions,
        SumInRange env (buildDependencies env.dependsOn instructions) x) →
      runPass env oracle options instructions
        = scheduleLoop env options instructions
            (buildDependencies env.dependsOn instructions)
            (prioritySum env (buildDependencies env.dependsOn instructions))
            (loopFuel instructions.length)
            (initState instructions (buildDependencies env.dependsOn instructions)
              oracle)) := by
  have h : ∀ x ∈ instructions,
      computePriorities env instructions (buildDependencies env.dependsOn instructions) x
        = score env (buildDependencies env.dependsOn instructions) x :=
    fun x hx => computePriorities_apply env instructions _ hx
  refine ⟨h, ?_, ?_, ?_⟩
  · intro x hx hr
    rw [h x hx, score_of_sumInRange env _ hr]
    rfl
  · unfold runPass
    exact scheduleLoop_congr env options instructions _ h _ _
      (inv_init instructions _ oracle)
  · intro hr
    unfold runPass
    refine scheduleLoop_congr env options instructions _ ?_ _ _
      (inv_init instructions _ oracle)
    intro x hx
    rw [h x hx, score_of_sumInRange env _ (hr x hx)]

/-- The priority theorem of C11 on the block `[1, 2]`, where critical-path
length and resource pressure are `0` and the latencies are `3` and `5`. -/
theorem priority_is_sum_of_estimates_witness :
    (∀ x ∈ [1, 2],
      SumInRange (sampleEnv noDeps (fun x => if x = 1 then 3 else 5) noConflict)
        (buildDependencies noDeps [1, 2]) x) ∧
    computePriorities (sampleEnv noDeps (fun x => if x = 1 then 3 else 5) noConflict) [1, 2]
      (buildDependencies noDeps [1, 2]) 2 = 0 + 0 + 5 ∧
    runPass (sampleEnv noDeps (fun x => if x = 1 then 3 else 5) noConflict) () () [1, 2]
      = scheduleLoop (sampleEnv noDeps (fun x => if x = 1 then 3 else 5) noConflict) ()
          [1, 2] (buildDependencies noDeps [1, 2])
          (prioritySum (sampleEnv noDeps (fun x => if x = 1 then 3 else 5) noConflict)
            (buildDependencies noDeps [1, 2]))
          (loopFuel [1, 2].length)
          (initState [1, 2] (buildDependencies noDeps [1, 2]) ()) :=
  ⟨by decide,
    (priority_is_sum_of_estimates
      (sampleEnv noDeps (fun x => if x = 1 then 3 else 5) noConflict) () () [1, 2]).2.1 2
      (by decide) (by decide),
    (priority_is_sum_of_estimates
      (sampleEnv noDeps (fun x => if x = 1 then 3 else 5) noConflict) () () [1, 2]).2.2.2
      (by decide)⟩

/-! ## Invariants of the loop -/

/-- The exit state of the pass is a reachable state in which no iteration starts. -/
theorem runPass_reachable {σ Opts : Type} (env : Env σ Opts) (oracle : σ) (options : Opts)
    (instructions : List Instr) :
    ∃ r, runPass env oracle options instructions = some r ∧
      Reachable env options instructions (depsOf env instructions)
        (priorityOf env instructions) oracle r ∧
      step env options instructions (depsOf env instructions)
        (priorityOf env instructions) r = none := by
  obtain ⟨r, hr, _, _, hexit⟩ := runPass_exits env oracle options instructions
    (fun _ => True) trivial (fun _ _ _ _ _ => trivial)
  refine ⟨r, hr, ?_, hexit⟩
  exact loop_reachable env options instructions _ _ oracle _ _ r Reachable.init hr

/-- C12: at the head of every iteration and at loop exit, for every input, the
schedule holds only instructions of the block and holds none twice, so its
length does not exceed the block's instruction count. -/
theorem schedule_within_block {σ Opts : Type} (env : Env σ Opts) (oracle : σ)
    (options : Opts) (instructions : List Instr) :
    (∀ s, Reachable env options instructions (depsOf env instructions)
        (priorityOf env instructions) oracle s →
      (∀ x ∈ s.schedule, x ∈ instructions) ∧ s.schedule.Nodup ∧
      s.schedule.length ≤ instructions.length) ∧
    ∃ schedule, finalSchedule env oracle options instructions = some schedule ∧
      (∀ x ∈ schedule, x ∈ instructions) ∧ schedule.Nodup ∧
      schedule.length ≤ instructions.length := by
  have key : ∀ s, Reachable env options instructions (depsOf env instructions)
      (priorityOf env instructions) oracle s →
      (∀ x ∈ s.schedule, x ∈ instructions) ∧ s.schedule.Nodup ∧
      s.schedule.length ≤ instructions.length := by
    intro s hs
    have hinv := reachable_inv env options instructions _ _ hs
    exact ⟨hinv.schedule_sub, hinv.schedule_nodup,
      length_le_of_nodup_sub instructions hinv.schedule_nodup hinv.schedule_sub⟩
  refine ⟨key, ?_⟩
  obtain ⟨r, hr, hreach, _⟩ := runPass_reachable env oracle options instructions
  exact ⟨r.schedule, finalSchedule_of_runPass hr, key r hreach⟩

/-- C15: at the head of every iteration and at loop exit, no instruction is
both ready and scheduled, and every ready instruction has all of its recorded
dependencies in the scheduled set. -/
theorem ready_disjoint_from_scheduled {σ Opts : Type} (env : Env σ Opts) (oracle : σ)
    (options : Opts) (instructions : List Instr) :
    (∀ s, Reachable env options instructions (depsOf env instructions)
        (priorityOf env instructions) oracle s →
      (∀ x, ¬ (x ∈ s.ready ∧ x ∈ s.scheduled)) ∧
      ∀ x ∈ s.ready, ∀ d ∈ buildDependencies env.dependsOn instructions x,
        d ∈ s.scheduled) ∧
    ∃ r, runPass env oracle options instructions = some r ∧
      step env options instructions (depsOf env instructions)
        (priorityOf env instructions) r = none ∧
      (∀ x, ¬ (x ∈ r.ready ∧ x ∈ r.scheduled)) ∧
      ∀ x ∈ r.ready, ∀ d ∈ buildDependencies env.dependsOn instructions x,
        d ∈ r.scheduled := by
  have key : ∀ s, Reachable env options instructions (depsOf env instructions)
      (priorityOf env instructions) oracle s →
      (∀ x, ¬ (x ∈ s.ready ∧ x ∈ s.scheduled)) ∧
      ∀ x ∈ s.ready, ∀ d ∈ buildDependencies env.dependsOn instructions x,
        d ∈ s.scheduled := by
    intro s hs
    have hinv := reachable_inv env options instructions _ _ hs
    exact ⟨fun x hx => hinv.ready_unscheduled x hx.1 hx.2, hinv.ready_deps⟩
  refine ⟨key, ?_⟩
  obtain ⟨r, hr, hreach, hexit⟩ := runPass_reachable env oracle options instructions
  exact ⟨r, hr, hexit, key r hreach⟩

/-! ## Selection and the ready set -/

/-- C13: in an iteration that starts with a non-empty ready set, when all
priorities of the block are non-negative, the scan selects a member of the
ready set whose priority is at least that of every ready instruction, and it
is the first instruction of the scan order with that priority: every
instruction visited before it has a strictly smaller priority, and no
instruction visited after it replaces it. -/
theorem selection_is_first_maximum {σ Opts : Type} (env : Env σ Opts) (oracle : σ)
    (options : Opts) (instructions : List Instr) (s : SchedState σ)
    (hreach : Reachable env options instructions (depsOf env instructions)
      (priorityOf env instructions) oracle s)
    (hpos : ∀ x ∈ instructions, 0 ≤ priorityOf env instructions x)
    (hne : s.ready ≠ []) :
    ∃ pre selected post, env.readyOrder s.ready = pre ++ selected :: post ∧
      (selectBest (priorityOf env instructions) (env.readyOrder s.ready)).1 = some selected ∧
      selected ∈ s.ready ∧
      (∀ y ∈ s.ready, priorityOf env instructions y ≤ priorityOf env instructions selected) ∧
      (∀ y ∈ pre, priorityOf env instructions y < priorityOf env instructions selected) ∧
      ∀ y ∈ post, priorityOf env instructions y ≤ priorityOf env instructions selected := by
  have hinv := reachable_inv env options instructions _ _ hreach
  rcases selectBest_cases (priorityOf env instructions) (env.readyOrder s.ready) with
    ⟨_, hle⟩ | ⟨pre, x, post, e1, e2, _, hpre, hpost⟩
  · exfalso
    obtain ⟨y, hy⟩ := List.exists_mem_of_ne_nil _ hne
    have h1 := hle y ((env.readyOrder_perm s.ready).mem_iff.2 hy)
    have h2 := hpos y (hinv.ready_sub y hy)
    omega
  · refine ⟨pre, x, post, e1, e2, selected_mem_ready env _ e2, ?_, hpre, hpost⟩
    intro y hy
    exact (selectBest_some e2).2.2 y ((env.readyOrder_perm s.ready).mem_iff.2 hy)

/-- The selection theorem of C13 at the first iteration over the block
`[1, 2, 3]`, where instructions `2` and `3` share the highest priority. -/
theorem selection_is_first_maximum_witness :
    (∀ x ∈ [1, 2, 3],
      0 ≤ priorityOf (sampleEnv noDeps (fun x => if x = 1 then 4 else 6) noConflict)
        [1, 2, 3] x) ∧
    (initState [1, 2, 3]
      (depsOf (sampleEnv noDeps (fun x => if x = 1 then 4 else 6) noConflict) [1, 2, 3])
      ()).ready ≠ [] ∧
    ∃ pre selected post,
      (sampleEnv noDeps (fun x => if x = 1 then 4 else 6) noConflict).readyOrder
        (initState [1, 2, 3]
          (depsOf (sampleEnv noDeps (fun x => if x = 1 then 4 else 6) noConflict) [1, 2, 3])
          ()).ready = pre ++ selected :: post ∧
      (selectBest
        (priorityOf (sampleEnv noDeps (fun x => if x = 1 then 4 else 6) noConflict) [1, 2, 3])
        ((sampleEnv noDeps (fun x => if x = 1 then 4 else 6) noConflict).readyOrder
          (initState [1, 2, 3]
            (depsOf (sampleEnv noDeps (fun x => if x = 1 then 4 else 6) noConflict)
              [1, 2, 3]) ()).ready)).1 = some selected ∧
      selected ∈ (initState [1, 2, 3]
        (depsOf (sampleEnv noDeps (fun x => if x = 1 then 4 else 6) noConflict) [1, 2, 3])
        ()).ready ∧
      (∀ y ∈ (initState [1, 2, 3]
          (depsOf (sampleEnv noDeps (fun x => if x = 1 then 4 else 6) noConflict) [1, 2, 3])
          ()).ready,
        priorityOf (sampleEnv noDeps (fun x => if x = 1 then 4 else 6) noConflict)
          [1, 2, 3] y
        ≤ priorityOf (sampleEnv noDeps (fun x => if x = 1 then 4 else 6) noConflict)
          [1, 2, 3] selected) ∧
      (∀ y ∈ pre,
        priorityOf (sampleEnv noDeps (fun x => if x = 1 then 4 else 6) noConflict)
          [1, 2, 3] y
        < priorityOf (sampleEnv noDeps (fun x => if x = 1 then 4 else 6) noConflict)
          [1, 2, 3] selected) ∧
      ∀ y ∈ post,
        priorityOf (sampleEnv noDeps (fun x => if x = 1 then 4 else 6) noConflict)
          [1, 2, 3] y
        ≤ priorityOf (sampleEnv noDeps (fun x => if x = 1 then 4 else 6) noConflict)
          [1, 2, 3] selected :=
  ⟨by decide, by decide,
    selection_is_first_maximum (sampleEnv noDeps (fun x => if x = 1 then 4 else 6) noConflict)
      () () [1, 2, 3] _ Reachable.init (by decide) (by decide)⟩

theorem updateReady_prefix (dependencies : Instr → List Instr) (scheduled : List Instr) :
    ∀ (l ready : List Instr), ready <+: updateReady l dependencies scheduled ready := by
  intro l
  induction l with
  | nil => intro ready; exact List.prefix_refl _
  | cons a rest ih =>
    intro ready
    have ih' := ih
    unfold updateReady at ih' ⊢
    rw [List.foldl_cons]
    split
    · exact ih' ready
    · split
      · refine List.IsPrefix.trans ?_ (ih' (setInsert ready a))
        unfold setInsert
        split
        · exact List.prefix_refl _
        · exact List.prefix_append _ _
      · exact ih' ready

section Advance

variable {σ Opts : Type} (env : Env σ Opts) (options : Opts) (instructions : List Instr)
  (dependencies : Instr → List Instr) (priority : Instr → Int)

theorem scheduled_mono_step {s s' : SchedState σ}
    (h : step env options instructions dependencies priority s = some s') :
    ∀ d ∈ s.scheduled, d ∈ s'.scheduled := by
  obtain ⟨selected, _, hcase⟩ := step_some env options instructions dependencies priority h
  rcases hcase with ⟨_, rfl⟩ | ⟨_, rfl⟩
  · exact fun d hd => hd
  · intro d hd
    exact mem_setInsert.2 (Or.inl hd)

theorem scheduled_mono_steps {s s' : SchedState σ}
    (h : StepsTo env options instructions dependencies priority s s') :
    ∀ d ∈ s.scheduled, d ∈ s'.scheduled := by
  induction h with
  | refl => exact fun d hd => hd
  | tail _ hstep ih =>
    intro d hd
    exact scheduled_mono_step env options instructions dependencies priority hstep d (ih d hd)

/-- The ready set right after a commit. -/
theorem ready_after_commit {s s' : SchedState σ} (hinv : Inv instructions dependencies s)
    (h : step env options instructions dependencies priority s = some s')
    (hgrow : s'.schedule ≠ s.schedule) (x : Instr) :
    x ∈ s'.ready ↔
      x ∈ instructions ∧ x ∉ s'.scheduled ∧ ∀ d ∈ dependencies x, d ∈ s'.scheduled := by
  have hinv' := inv_step env options instructions dependencies priority hinv h
  constructor
  · intro hx
    exact ⟨hinv'.ready_sub x hx, hinv'.ready_unscheduled x hx, hinv'.ready_deps x hx⟩
  · rintro ⟨h1, h2, h3⟩
    exact readyFull_commit env options instructions dependencies priority hinv h hgrow
      x h1 h2 h3

end Advance

/-- C14: right after a commit, the ready set is exactly the set of block
instructions that are not scheduled and whose recorded dependencies are all
scheduled.  The update leaves the instructions that were already ready in
place, once each, and an instruction that a resource conflict removed from the
ready set in an earlier iteration and that is still unscheduled is ready
again. -/
theorem ready_set_advance {σ Opts : Type} (env : Env σ Opts) (oracle : σ)
    (options : Opts) (instructions : List Instr) (s s' : SchedState σ)
    (hreach : Reachable env options instructions (depsOf env instructions)
      (priorityOf env instructions) oracle s)
    (hstep : step env options instructions (depsOf env instructions)
      (priorityOf env instructions) s = some s')
    (hcommit : s'.schedule ≠ s.schedule) :
    (∀ x, x ∈ s'.ready ↔
      x ∈ instructions ∧ x ∉ s'.scheduled ∧
        ∀ d ∈ buildDependencies env.dependsOn instructions x, d ∈ s'.scheduled) ∧
    s'.ready.Nodup ∧
    (∃ selected, s'.schedule = s.schedule ++ [selected] ∧
      setErase s.ready selected <+: s'.ready) ∧
    ∀ s₁ s₂ x,
      Reachable env options instructions (depsOf env instructions)
        (priorityOf env instructions) oracle s₁ →
      step env options instructions (depsOf env instructions)
        (priorityOf env instructions) s₁ = some s₂ →
      s₂.schedule = s₁.schedule → x ∈ s₁.ready → x ∉ s₂.ready →
      StepsTo env options instructions (depsOf env instructions)
        (priorityOf env instructions) s₂ s →
      x ∉ s'.scheduled → x ∈ s'.ready := by
  have hinv := reachable_inv env options instructions _ _ hreach
  have hinv' := inv_step env options instructions _ _ hinv hstep
  have hexact := ready_after_commit env options instructions _ _ hinv hstep hcommit
  refine ⟨hexact, hinv'.ready_nodup, ?_, ?_⟩
  · obtain ⟨selected, _, hcase⟩ := step_some env options instructions _ _ hstep
    rcases hcase with ⟨_, rfl⟩ | ⟨_, rfl⟩
    · exact absurd rfl hcommit
    · exact ⟨selected, rfl, updateReady_prefix _ _ _ _⟩
  · intro s₁ s₂ x hreach₁ hstep₁ _ hx₁ _ hsteps hns
    have hinv₁ := reachable_inv env options instructions _ _ hreach₁
    refine (hexact x).2 ⟨hinv₁.ready_sub x hx₁, hns, ?_⟩
    intro d hd
    apply scheduled_mono_step env options instructions _ _ hstep
    apply scheduled_mono_steps env options instructions _ _ hsteps
    apply scheduled_mono_step env options instructions _ _ hstep₁
    exact hinv₁.ready_deps x hx₁ d hd

/-- The advance theorem of C14 on the block `[7, 8]`, where instruction `7`
has the higher priority, with an oracle that rejects `7` once: the first
iteration selects `7` and removes it from the ready set, the second commits
`8`, and `7` is ready again. -/
theorem ready_set_advance_witness :
    Reachable (sampleEnv noDeps (fun x => if x = 7 then 2 else 1) (rejectOnce 7)) () [7, 8]
      (depsOf (sampleEnv noDeps (fun x => if x = 7 then 2 else 1) (rejectOnce 7)) [7, 8])
      (priorityOf (sampleEnv noDeps (fun x => if x = 7 then 2 else 1) (rejectOnce 7)) [7, 8]) false
      ⟨[], [], [8], true⟩ ∧
    step (sampleEnv noDeps (fun x => if x = 7 then 2 else 1) (rejectOnce 7)) () [7, 8]
      (depsOf (sampleEnv noDeps (fun x => if x = 7 then 2 else 1) (rejectOnce 7)) [7, 8])
      (priorityOf (sampleEnv noDeps (fun x => if x = 7 then 2 else 1) (rejectOnce 7)) [7, 8])
      ⟨[], [], [8], true⟩ = some ⟨[8], [8], [7], true⟩ ∧
    (∀ x, x ∈ [7] ↔
      x ∈ [7, 8] ∧ x ∉ [8] ∧ ∀ d ∈ buildDependencies noDeps [7, 8] x, d ∈ [8]) ∧
    7 ∈ (⟨[8], [8], [7], true⟩ : SchedState Bool).ready := by
  have hreach : Reachable (sampleEnv noDeps (fun x => if x = 7 then 2 else 1) (rejectOnce 7)) () [7, 8]
      (depsOf (sampleEnv noDeps (fun x => if x = 7 then 2 else 1) (rejectOnce 7)) [7, 8])
      (priorityOf (sampleEnv noDeps (fun x => if x = 7 then 2 else 1) (rejectOnce 7)) [7, 8]) false
      ⟨[], [], [8], true⟩ :=
    Reachable.next Reachable.init (by decide)
  have hstep : step (sampleEnv noDeps (fun x => if x = 7 then 2 else 1) (rejectOnce 7)) () [7, 8]
      (depsOf (sampleEnv noDeps (fun x => if x = 7 then 2 else 1) (rejectOnce 7)) [7, 8])
      (priorityOf (sampleEnv noDeps (fun x => if x = 7 then 2 else 1) (rejectOnce 7)) [7, 8])
      ⟨[], [], [8], true⟩ = some ⟨[8], [8], [7], true⟩ := by decide
  have h := ready_set_advance (sampleEnv noDeps (fun x => if x = 7 then 2 else 1) (rejectOnce 7)) false ()
    [7, 8] ⟨[], [], [8], true⟩ ⟨[8], [8], [7], true⟩ hreach hstep (by decide)
  refine ⟨hreach, hstep, h.1, ?_⟩
  exact h.2.2.2 (initState [7, 8]
      (depsOf (sampleEnv noDeps (fun x => if x = 7 then 2 else 1) (rejectOnce 7)) [7, 8]) false)
    ⟨[], [], [8], true⟩ 7 Reachable.init (by decide) (by decide) (by decide) (by decide)
    Relation.ReflTransGen.refl (by decide)

/-! ## Complete and incomplete schedules -/

theorem mem_buildDependencies_of_dependsOn {dependsOn : Instr → Instr → Bool}
    {instructions : List Instr} {a b : Instr} (ha : a ∈ instructions)
    (hb : b ∈ instructions) (hab : a ≠ b) (hd : dependsOn a b = true) :
    b ∈ buildDependencies dependsOn instructions a := by
  rw [buildDependencies_apply, List.mem_flatten]
  refine ⟨directDeps dependsOn instructions a, ?_, ?_⟩
  · rw [List.mem_replicate]
    exact ⟨Nat.pos_iff_ne_zero.1 (List.count_pos_iff.2 ha), rfl⟩
  · simp only [directDeps, List.mem_filter, Bool.and_eq_true, decide_eq_true_eq]
    exact ⟨hb, fun e => hab e.symm, hd⟩

/-- C16: for a block of pairwise distinct instructions whose dependency
relation is acyclic, with non-negative priorities and an oracle that never
reports a conflict, the schedule handed to `reorderInstructions` is a
permutation of the block, of the same length, and a topological order:
whenever `a.dependsOn(b)` for distinct instructions of the block, `b` stands
strictly before `a`. -/
theorem complete_topological_schedule {σ Opts : Type} (env : Env σ Opts) (oracle : σ)
    (options : Opts) (instructions : List Instr)
    (hnd : instructions.Nodup)
    (hac : Acyclic env.dependsOn instructions)
    (hpos : ∀ x ∈ instructions, 0 ≤ priorityOf env instructions x)
    (hfree : ∀ (o : σ) (x : Instr) (sch : List Instr),
      (env.hasResourceConflict o x sch options).1 = false) :
    ∃ schedule, finalSchedule env oracle options instructions = some schedule ∧
      schedule.Perm instructions ∧ schedule.length = instructions.length ∧
      ∀ a ∈ instructions, ∀ b ∈ instructions, a ≠ b → env.dependsOn a b = true →
        Before schedule b a := by
  obtain ⟨r, hr, hinv, hall⟩ := runPass_complete env oracle options instructions hac hpos hfree
  have hperm : r.schedule.Perm instructions :=
    (List.perm_ext_iff_of_nodup hinv.schedule_nodup hnd).2
      (fun x => ⟨hinv.schedule_sub x, hall x⟩)
  refine ⟨r.schedule, finalSchedule_of_runPass hr, hperm, hperm.length_eq, ?_⟩
  intro a ha b hb hab hd
  exact before_of_closed hinv (hall a ha) b (mem_buildDependencies_of_dependsOn ha hb hab hd)

/-- The completeness theorem of C16 at the chain block `[2, 4, 3, 1]`, where
instruction `n + 1` depends on instruction `n`. -/
theorem complete_topological_schedule_witness :
    [2, 4, 3, 1].Nodup ∧ Acyclic chainDeps [2, 4, 3, 1] ∧
    ∃ schedule,
      finalSchedule (sampleEnv chainDeps (fun _ => 1) noConflict) () () [2, 4, 3, 1]
        = some schedule ∧
      schedule.Perm [2, 4, 3, 1] ∧ schedule.length = [2, 4, 3, 1].length ∧
      ∀ a ∈ [2, 4, 3, 1], ∀ b ∈ [2, 4, 3, 1], a ≠ b → chainDeps a b = true →
        Before schedule b a :=
  ⟨by decide, acyclic_of_rank (fun x => x) (by decide),
    complete_topological_schedule (sampleEnv chainDeps (fun _ => 1) noConflict) () ()
      [2, 4, 3, 1] (by decide) (acyclic_of_rank (fun x => x) (by decide)) (by decide)
      (fun _ _ _ => rfl)⟩

theorem split_at_index {l : List Instr} {k : Nat} {i : Instr} (h : l[k]? = some i) :
    ∃ pre post, l = pre ++ i :: post ∧ pre.length = k := by
  obtain ⟨hk, hi⟩ := List.getElem?_eq_some_iff.1 h
  refine ⟨l.take k, l.drop (k + 1), ?_, ?_⟩
  · rw [← hi, ← List.drop_eq_getElem_cons hk, List.take_append_drop]
  · rw [List.length_take]
    omega

/-- C17: for every input, complete schedule or not, each instruction that
stands at position `k` of the output schedule has every one of its recorded
dependencies at a position strictly below `k`. -/
theorem schedule_dependency_closed {σ Opts : Type} (env : Env σ Opts) (oracle : σ)
    (options : Opts) (instructions : List Instr) :
    ∃ schedule, finalSchedule env oracle options instructions = some schedule ∧
      ∀ (k : Nat) (i : Instr), schedule[k]? = some i →
        ∀ d ∈ buildDependencies env.dependsOn instructions i,
          ∃ j, j < k ∧ schedule[j]? = some d := by
  obtain ⟨r, hr, hinv, _, _⟩ := runPass_exits env oracle options instructions
    (fun _ => True) trivial (fun _ _ _ _ _ => trivial)
  refine ⟨r.schedule, finalSchedule_of_runPass hr, ?_⟩
  intro k i hk d hd
  obtain ⟨pre, post, e, hlen⟩ := split_at_index hk
  have hmem : d ∈ pre := hinv.closed pre i post e d hd
  obtain ⟨j, hj⟩ := List.mem_iff_getElem?.1 hmem
  have hjlt : j < pre.length := (List.getElem?_eq_some_iff.1 hj).1
  refine ⟨j, by omega, ?_⟩
  rw [e, List.getElem?_append_left hjlt]
  exact hj

/-! ## Oracles without state -/

section Stateless

variable {σ Opts : Type} (env : Env σ Opts) (options : Opts) (instructions : List Instr)
  (dependencies : Instr → List Instr) (priority : Instr → Int)

theorem readyOrRejected_init (oracle : σ) :
    ReadyOrRejected env options instructions dependencies
      (initState instructions dependencies oracle) := by
  intro t ht
  left
  exact readyFull_init instructions dependencies oracle t ht.1 ht.2.1 ht.2.2

theorem readyOrRejected_step (hst : OracleStateless env options) {s s' : SchedState σ}
    (hinv : Inv instructions dependencies s)
    (hs : ReadyOrRejected env options instructions dependencies s)
    (h : step env options instructions dependencies priority s = some s') :
    ReadyOrRejected env options instructions dependencies s' := by
  have hinv' := inv_step env options instructions dependencies priority hinv h
  obtain ⟨selected, hsel, hcase⟩ := step_some env options instructions dependencies priority h
  rcases hcase with ⟨hc, e⟩ | ⟨_, e⟩
  · intro t ht
    have ht' : Eligible instructions dependencies s.schedule t := by rw [e] at ht; exact ht
    have hsch : s'.schedule = s.schedule := by rw [e]
    have hrd : s'.ready = setErase s.ready selected := by rw [e]
    rw [hsch, hrd]
    rcases hs t ht' with hr | hrej
    · by_cases hts : t = selected
      · right
        intro o
        rw [hts, hst o s.oracle]
        exact hc
      · left
        exact (mem_setErase hinv.ready_nodup).2 ⟨hr, hts⟩
    · exact Or.inr hrej
  · intro t ht
    left
    have hgrow : s'.schedule ≠ s.schedule := by
      rw [e]
      intro hc
      have := congrArg List.length hc
      simp at this
    apply readyFull_commit env options instructions dependencies priority hinv h hgrow t ht.1
    · exact fun hc => ht.2.1 ((hinv'.scheduled_iff t).1 hc)
    · exact fun d hd => (hinv'.scheduled_iff d).2 (ht.2.2 d hd)

theorem reachable_readyOrRejected (hst : OracleStateless env options) {oracle : σ}
    {s : SchedState σ}
    (h : Reachable env options instructions dependencies priority oracle s) :
    ReadyOrRejected env options instructions dependencies s := by
  induction h with
  | init => exact readyOrRejected_init env options instructions dependencies oracle
  | next hreach hstep ih =>
    exact readyOrRejected_step env options instructions dependencies priority hst
      (reachable_inv env options instructions dependencies priority hreach) ih hstep

end Stateless

/-- C18: with an oracle whose answer depends only on the instruction, the
schedule so far and the options, whenever the loop appends an instruction
`sel` to the schedule `P`, the oracle accepts `sel` against `P`, and the
priority of `sel` is at least that of every block instruction that is not in
`P`, has all its recorded dependencies in `P` and is accepted by the oracle
against `P`.  Non-negative priorities are not needed for this. -/
theorem commit_is_best_accepted_candidate {σ Opts : Type} (env : Env σ Opts) (oracle : σ)
    (options : Opts) (instructions : List Instr) (s s' : SchedState σ) (sel : Instr)
    (hst : OracleStateless env options)
    (hreach : Reachable env options instructions (depsOf env instructions)
      (priorityOf env instructions) oracle s)
    (hstep : step env options instructions (depsOf env instructions)
      (priorityOf env instructions) s = some s')
    (happ : s'.schedule = s.schedule ++ [sel]) :
    (env.hasResourceConflict s.oracle sel s.schedule options).1 = false ∧
    ∀ t, Eligible instructions (depsOf env instructions) s.schedule t →
      (env.hasResourceConflict s.oracle t s.schedule options).1 = false →
      priorityOf env instructions t ≤ priorityOf env instructions sel := by
  have hrr := reachable_readyOrRejected env options instructions _ _ hst hreach
  obtain ⟨selected, hsel, hcase⟩ := step_some env options instructions _ _ hstep
  rcases hcase with ⟨_, e⟩ | ⟨hc, e⟩
  · exfalso
    rw [e] at happ
    have := congrArg List.length happ
    simp at this
  · rw [e] at happ
    have hs : selected = sel := by
      have := List.append_cancel_left happ
      simpa using this
    subst hs
    refine ⟨hc, ?_⟩
    intro t ht hacc
    rcases hrr t ht with hr | hrej
    · exact (selectBest_some hsel).2.2 t ((env.readyOrder_perm s.ready).mem_iff.2 hr)
    · rw [hrej s.oracle] at hacc
      cases hacc

/-- The fallback theorem of C18 on the block `[1, 2, 3]`: instruction `3` has
the highest priority and is always rejected, and the loop commits `1`. -/
theorem commit_is_best_accepted_candidate_witness :
    OracleStateless (sampleEnv noDeps (fun x => if x = 3 then 9 else 4) (rejectAlways 3)) () ∧
    step (sampleEnv noDeps (fun x => if x = 3 then 9 else 4) (rejectAlways 3)) () [1, 2, 3]
      (depsOf (sampleEnv noDeps (fun x => if x = 3 then 9 else 4) (rejectAlways 3)) [1, 2, 3])
      (priorityOf (sampleEnv noDeps (fun x => if x = 3 then 9 else 4) (rejectAlways 3))
        [1, 2, 3])
      ⟨[], [], [1, 2], ()⟩ = some ⟨[1], [1], [2, 3], ()⟩ ∧
    ((sampleEnv noDeps (fun x => if x = 3 then 9 else 4) (rejectAlways 3)).hasResourceConflict
      () 1 [] ()).1 = false ∧
    ∀ t,
      Eligible [1, 2, 3]
        (depsOf (sampleEnv noDeps (fun x => if x = 3 then 9 else 4) (rejectAlways 3))
          [1, 2, 3]) [] t →
      ((sampleEnv noDeps (fun x => if x = 3 then 9 else 4)
        (rejectAlways 3)).hasResourceConflict () t [] ()).1 = false →
      priorityOf (sampleEnv noDeps (fun x => if x = 3 then 9 else 4) (rejectAlways 3))
        [1, 2, 3] t
      ≤ priorityOf (sampleEnv noDeps (fun x => if x = 3 then 9 else 4) (rejectAlways 3))
        [1, 2, 3] 1 := by
  have hst : OracleStateless
      (sampleEnv noDeps (fun x => if x = 3 then 9 else 4) (rejectAlways 3)) () :=
    fun _ _ _ _ => rfl
  have hstep : step (sampleEnv noDeps (fun x => if x = 3 then 9 else 4) (rejectAlways 3)) ()
      [1, 2, 3]
      (depsOf (sampleEnv noDeps (fun x => if x = 3 then 9 else 4) (rejectAlways 3)) [1, 2, 3])
      (priorityOf (sampleEnv noDeps (fun x => if x = 3 then 9 else 4) (rejectAlways 3))
        [1, 2, 3])
      ⟨[], [], [1, 2], ()⟩ = some ⟨[1], [1], [2, 3], ()⟩ := by decide
  have h := commit_is_best_accepted_candidate
    (sampleEnv noDeps (fun x => if x = 3 then 9 else 4) (rejectAlways 3)) () () [1, 2, 3]
    ⟨[], [], [1, 2], ()⟩ ⟨[1], [1], [2, 3], ()⟩ 1 hst
    (Reachable.next Reachable.init (by decide)) hstep rfl
  exact ⟨hst, hstep, h.1, h.2⟩

/-- C19: with non-negative priorities and an oracle whose answer depends only
on the instruction, the schedule so far and the options, the loop ends with a
schedule `S` such that every block instruction outside `S` has a recorded
dependency outside `S` or is rejected by the oracle against `S`; so when `S`
is incomplete, the dependency relation has a cycle or some instruction whose
dependencies are all in `S` is rejected against `S`. -/
theorem exit_schedule_is_maximal {σ Opts : Type} (env : Env σ Opts) (oracle : σ)
    (options : Opts) (instructions : List Instr)
    (hpos : ∀ x ∈ instructions, 0 ≤ priorityOf env instructions x)
    (hst : OracleStateless env options) :
    ∃ r, runPass env oracle options instructions = some r ∧
      step env options instructions (depsOf env instructions)
        (priorityOf env instructions) r = none ∧
      (∀ t ∈ instructions, t ∉ r.schedule →
        (∃ d ∈ buildDependencies env.dependsOn instructions t, d ∉ r.schedule) ∨
        ∀ o : σ, (env.hasResourceConflict o t r.schedule options).1 = true) ∧
      ((∃ x ∈ instructions, x ∉ r.schedule) →
        ¬ Acyclic env.dependsOn instructions ∨
        ∃ t, Eligible instructions (depsOf env instructions) r.schedule t ∧
          ∀ o : σ, (env.hasResourceConflict o t r.schedule options).1 = true) := by
  obtain ⟨r, hr, hinv, hrr, hexit⟩ := runPass_exits env oracle options instructions
    (ReadyOrRejected env options instructions (depsOf env instructions))
    (readyOrRejected_init env options instructions _ oracle)
    (fun s s' hi hp hs => readyOrRejected_step env options instructions _ _ hst hi hp hs)
  have hnil := exit_ready_nil env options instructions _ _ hpos hinv hexit
  have hmax : ∀ t ∈ instructions, t ∉ r.schedule →
      (∃ d ∈ buildDependencies env.dependsOn instructions t, d ∉ r.schedule) ∨
      ∀ o : σ, (env.hasResourceConflict o t r.schedule options).1 = true := by
    intro t ht hns
    by_cases hd : ∀ d ∈ buildDependencies env.dependsOn instructions t, d ∈ r.schedule
    · rcases hrr t ⟨ht, hns, hd⟩ with hready | hrej
      · rw [hnil] at hready
        cases hready
      · exact Or.inr hrej
    · left
      push_neg at hd
      exact hd
  refine ⟨r, hr, hexit, hmax, ?_⟩
  rintro ⟨x, hx, hxs⟩
  by_cases hac : Acyclic env.dependsOn instructions
  · right
    obtain ⟨m, hm, hUm, hmin⟩ := acyclic_min hac (fun y => y ∉ r.schedule) hx hxs
    have hel : Eligible instructions (depsOf env instructions) r.schedule m := by
      refine ⟨hm, hUm, ?_⟩
      intro d hd
      obtain ⟨h1, h2, h3, h4⟩ := mem_buildDependencies hd
      by_contra hdn
      exact hmin d ⟨h1, h2, fun e => h3 e.symm, h4⟩ hdn
    refine ⟨m, hel, ?_⟩
    rcases hrr m hel with hready | hrej
    · rw [hnil] at hready
      cases hready
    · exact hrej
  · exact Or.inl hac

/-- The maximality theorem of C19 on the block `[1, 2, 3]` with an oracle that
always rejects instruction `3`. -/
theorem exit_schedule_is_maximal_witness :
    (∀ x ∈ [1, 2, 3],
      0 ≤ priorityOf (sampleEnv noDeps (fun _ => 1) (rejectAlways 3)) [1, 2, 3] x) ∧
    OracleStateless (sampleEnv noDeps (fun _ => 1) (rejectAlways 3)) () ∧
    ∃ r, runPass (sampleEnv noDeps (fun _ => 1) (rejectAlways 3)) () () [1, 2, 3] = some r ∧
      step (sampleEnv noDeps (fun _ => 1) (rejectAlways 3)) () [1, 2, 3]
        (depsOf (sampleEnv noDeps (fun _ => 1) (rejectAlways 3)) [1, 2, 3])
        (priorityOf (sampleEnv noDeps (fun _ => 1) (rejectAlways 3)) [1, 2, 3]) r = none ∧
      (∀ t ∈ [1, 2, 3], t ∉ r.schedule →
        (∃ d ∈ buildDependencies noDeps [1, 2, 3] t, d ∉ r.schedule) ∨
        ∀ o : Unit, (rejectAlways 3 o t r.schedule ()).1 = true) ∧
      ((∃ x ∈ [1, 2, 3], x ∉ r.schedule) →
        ¬ Acyclic noDeps [1, 2, 3] ∨
        ∃ t, Eligible [1, 2, 3]
            (depsOf (sampleEnv noDeps (fun _ => 1) (rejectAlways 3)) [1, 2, 3]) r.schedule t ∧
          ∀ o : Unit, (rejectAlways 3 o t r.schedule ()).1 = true) :=
  ⟨by decide, fun _ _ _ _ => rfl,
    exit_schedule_is_maximal (sampleEnv noDeps (fun _ => 1) (rejectAlways 3)) () ()
      [1, 2, 3] (by decide) (fun _ _ _ _ => rfl)⟩

/-! ## The sentinel of the selection scan -/

/-- C20: if every computed priority is at least `0`, then in every iteration
that starts with a non-empty ready set the scan from `bestPriority = -1`
selects an instruction, so the loop never leaves through `if (!selected) break`
and ends only on an empty ready set; and for the one-instruction block whose
instruction has priority `-1` the loop does leave through that branch, with
the instruction still ready and unscheduled. -/
theorem selection_is_never_null :
    (∀ (σ Opts : Type) (env : Env σ Opts) (oracle : σ) (options : Opts)
        (instructions : List Instr),
      (∀ x ∈ instructions, 0 ≤ priorityOf env instructions x) →
      (∀ s, Reachable env options instructions (depsOf env instructions)
          (priorityOf env instructions) oracle s → s.ready ≠ [] →
        ∃ selected,
          (selectBest (priorityOf env instructions) (env.readyOrder s.ready)).1
            = some selected) ∧
      (∀ s, Reachable env options instructions (depsOf env instructions)
          (priorityOf env instructions) oracle s →
        step env options instructions (depsOf env instructions)
          (priorityOf env instructions) s = none → s.ready = []) ∧
      ∃ r, runPass env oracle options instructions = some r ∧ r.ready = []) ∧
    (priorityOf (sampleEnv noDeps (fun _ => -1) noConflict) [5] 5 = -1 ∧
      ∃ r, runPass (sampleEnv noDeps (fun _ => -1) noConflict) () () [5] = some r ∧
        r.ready = [5] ∧
        (selectBest (priorityOf (sampleEnv noDeps (fun _ => -1) noConflict) [5])
          ((sampleEnv noDeps (fun _ => -1) noConflict).readyOrder r.ready)).1 = none ∧
        5 ∉ r.schedule) := by
  constructor
  · intro σ Opts env oracle options instructions hpos
    have hexit : ∀ s, Reachable env options instructions (depsOf env instructions)
        (priorityOf env instructions) oracle s →
        step env options instructions (depsOf env instructions)
          (priorityOf env instructions) s = none → s.ready = [] :=
      fun s hs h => exit_ready_nil env options instructions _ _ hpos
        (reachable_inv env options instructions _ _ hs) h
    refine ⟨?_, hexit, ?_⟩
    · intro s hs hne
      have hinv := reachable_inv env options instructions _ _ hs
      cases hsel : (selectBest (priorityOf env instructions) (env.readyOrder s.ready)).1 with
      | some x => exact ⟨x, rfl⟩
      | none =>
        exfalso
        obtain ⟨y, hy⟩ := List.exists_mem_of_ne_nil _ hne
        have h1 := selectBest_none hsel y ((env.readyOrder_perm s.ready).mem_iff.2 hy)
        have h2 := hpos y (hinv.ready_sub y hy)
        omega
    · obtain ⟨r, hr, hreach, hstep⟩ := runPass_reachable env oracle options instructions
      exact ⟨r, hr, hexit r hreach hstep⟩
  · exact ⟨by decide, ⟨[], [], [5], ()⟩, by decide, rfl, by decide, by simp⟩

/-- The first part of C20 on the block `[1, 2]` with priorities `1` and `2`. -/
theorem selection_is_never_null_witness :
    (∀ x ∈ [1, 2], 0 ≤ priorityOf (sampleEnv noDeps (fun x => x) noConflict) [1, 2] x) ∧
    (∃ selected,
      (selectBest (priorityOf (sampleEnv noDeps (fun x => x) noConflict) [1, 2])
        ((sampleEnv noDeps (fun x => x) noConflict).readyOrder
          (initState [1, 2] (depsOf (sampleEnv noDeps (fun x => x) noConflict) [1, 2])
            ()).ready)).1 = some selected) ∧
    ∃ r, runPass (sampleEnv noDeps (fun x => x) noConflict) () () [1, 2] = some r ∧
      r.ready = [] :=
  ⟨by decide,
    (selection_is_never_null.1 Unit Unit (sampleEnv noDeps (fun x => x) noConflict) () ()
      [1, 2] (by decide)).1 _ Reachable.init (by decide),
    (selection_is_never_null.1 Unit Unit (sampleEnv noDeps (fun x => x) noConflict) () ()
      [1, 2] (by decide)).2.2⟩

end trips
